import Mathlib

/-!
Verification development for the Entity Resolution & Company Consolidation
engine (src/lookthrough/inference/entity_resolution.py).

Python strings are modelled as lists of characters (`Str`), Python dicts as
insertion-ordered association lists with overwrite-in-place semantics,
Python sets as `Finset`, and Python floats arising as ratios of small
natural numbers as `ℚ`.  All definitions are executable and kernel-reducible
(bounded recursions use an explicit fuel equal to the list length, never
well-founded recursion), so concrete runs evaluate by `decide`/`rfl`.
-/

namespace EntityResolution

/-- Python `str` modelled as a list of characters. -/
abbrev Str := List Char

/-- ASCII lower-casing of one character, as performed by `str.lower` on the
identifiers appearing in this dataset. -/
def pyToLower (c : Char) : Char :=
  if 65 ≤ c.toNat ∧ c.toNat ≤ 90 then Char.ofNat (c.toNat + 32) else c

/-- Python `str.lower`. -/
def pyLower (s : Str) : Str := s.map pyToLower

/-- Python whitespace characters recognised by `str.strip` / `str.split`. -/
def pyIsSpace (c : Char) : Bool :=
  c = ' ' ∨ c = '\t' ∨ c = '\n' ∨ c = Char.ofNat 11 ∨ c = Char.ofNat 12 ∨ c = '\r'

/-- Python `str.strip`: drop leading and trailing whitespace. -/
def pyStrip (s : Str) : Str :=
  (((s.dropWhile pyIsSpace).reverse).dropWhile pyIsSpace).reverse

/-- Python `str.split()` with no separator: split on whitespace runs,
dropping empty pieces.  Fuel-driven so that it reduces in the kernel. -/
def splitWSGo : Nat → Str → List Str
  | 0, _ => []
  | _ + 1, [] => []
  | fuel + 1, c :: rest =>
    if pyIsSpace c then splitWSGo fuel rest
    else (c :: rest.takeWhile (fun d => ¬ pyIsSpace d)) ::
      splitWSGo fuel (rest.dropWhile (fun d => ¬ pyIsSpace d))

/-- Python `str.split()` (whitespace splitting, empties dropped). -/
def splitWS (s : Str) : List Str := splitWSGo s.length s

/-- Python `' '.join(words)`. -/
def joinSpace : List Str → Str
  | [] => []
  | [t] => t
  | t :: ts => t ++ ' ' :: joinSpace ts

/-- Drop the characters of the input up to and including the first `')'`,
returning `none` when no `')'` occurs (used for `re.sub(r'\([^)]*\)', ...)`). -/
def dropThroughClose : Str → Option Str
  | [] => none
  | c :: rest => if c = ')' then some rest else dropThroughClose rest

/-- Removal of parenthesised content, mirroring
`re.sub(r'\([^)]*\)', '', text)`: each `'('` that is followed by a later
`')'` is removed together with everything up to that first `')'`;
a `'('` with no closing `')'` is kept.  Fuel-driven. -/
def removeParensGo : Nat → Str → Str
  | 0, _ => []
  | _ + 1, [] => []
  | fuel + 1, c :: rest =>
    if c = '(' ∧ rest.contains ')' then
      match dropThroughClose rest with
      | some after => removeParensGo fuel after
      | none => c :: removeParensGo fuel rest
    else c :: removeParensGo fuel rest

/-- Removal of parenthesised content (`re.sub(r'\([^)]*\)', '', text)`). -/
def removeParens (s : Str) : Str := removeParensGo s.length s

/-- The punctuation removed by the normalizer: `re.sub(r'[,.\(\)]', ' ', text)`. -/
def isPunct (c : Char) : Bool := c = ',' ∨ c = '.' ∨ c = '(' ∨ c = ')'

/-- Replace the normalizer's punctuation characters with spaces. -/
def replacePunct (s : Str) : Str := s.map (fun c => if isPunct c then ' ' else c)

/-- COMPANY_SUFFIXES from the source module. -/
def company_suffixes : List Str :=
  [("inc").data, ("llc").data, ("lp").data, ("l.p.").data, ("corp").data,
   ("corporation").data, ("ltd").data, ("limited").data, ("co").data,
   ("holdings").data, ("group").data, ("holdco").data, ("parent").data,
   ("topco").data, ("bidco").data, ("buyer").data, ("acquiror").data,
   ("investor").data, ("acquisition").data, ("purchaser").data]

/-- CONNECTOR_WORDS from the source module. -/
def connector_words : List Str :=
  [("and").data, ("the").data, ("of").data, ("dba").data, ("fka").data, ("aka").data]

/-- The `_normalize_name` function: lower-case, strip, drop parenthesised
content, replace punctuation by spaces, split on whitespace, drop suffix and
connector tokens, rejoin with single spaces. -/
def normalize_name (name : Str) : Str :=
  if name = [] then []
  else
    let text := pyStrip (pyLower name)
    let text := removeParens text
    let text := replacePunct text
    let words := splitWS text
    let filtered := words.filterMap (fun w =>
      let wc := pyStrip w
      if wc ≠ [] ∧ wc ∉ company_suffixes ∧ wc ∉ connector_words then some wc else none)
    joinSpace filtered

/-- The `_tokenize` function: the set of words of the normalized name. -/
def tokenize (name : Str) : Finset Str := (splitWS (normalize_name name)).toFinset

/-- The `_jaccard_similarity` function on token sets, with the guard for
empty sets and the division-by-zero guard of the source. -/
def jaccard_similarity (s1 s2 : Finset Str) : ℚ :=
  if s1 = ∅ ∨ s2 = ∅ then mkRat 0 1
  else
    let i := (s1 ∩ s2).card
    let u := (s1 ∪ s2).card
    if 0 < u then mkRat i u else mkRat 0 1

/-- Boolean prefix test on character lists. -/
def leadsWith : Str → Str → Bool
  | [], _ => true
  | _ :: _, [] => false
  | p :: ps, c :: cs => if p = c then leadsWith ps cs else false

/-- Leftmost occurrence of `pat` in the scanned string, reporting the index
(`str.find` / leftmost `re.search` position). -/
def findFromGo (pat : Str) : Str → Nat → Option Nat
  | [], i => if pat = [] then some i else none
  | c :: rest, i =>
    if leadsWith pat (c :: rest) then some i else findFromGo pat rest (i + 1)

/-- The alternatives of the suffix pattern
`(?:inc|llc|lp|l\.p\.|corp|corporation|ltd|limited)`, in regex order. -/
def suffix_alts : List Str :=
  [("inc").data, ("llc").data, ("lp").data, ("l.p.").data, ("corp").data,
   ("corporation").data, ("ltd").data, ("limited").data]

/-- Head-is-comma test. -/
def headIsComma (l : Str) : Bool := l.head? = some ','

/-- Comma after an optional whitespace run. -/
def commaAfterWs (l : Str) : Bool := headIsComma (l.dropWhile pyIsSpace)

/-- Try to match one alternative followed by `\s*,` at the head of `l`,
returning the total match length (suffix, whitespace run, comma). -/
def matchAltAt (l : Str) (alt : Str) : Option Nat :=
  if leadsWith alt l then
    let rest := l.drop alt.length
    let k := (rest.takeWhile pyIsSpace).length
    if headIsComma (rest.drop k) then some (alt.length + k + 1) else none
  else none

/-- Match the full suffix-comma pattern at the head of `l`. -/
def matchSuffixAt (l : Str) : Option Nat := suffix_alts.findSome? (matchAltAt l)

/-- Leftmost match of the suffix-comma pattern: start index and length
(the behaviour of `re.search(suffix_pattern, text, re.IGNORECASE)` on an
already lower-cased string). -/
def searchSuffixGo : Str → Nat → Option (Nat × Nat)
  | [], _ => none
  | c :: rest, i =>
    match matchSuffixAt (c :: rest) with
    | some len => some (i, len)
    | none => searchSuffixGo rest (i + 1)

/-- The literal `' and '` searched by `_extract_first_entity`. -/
def and_sep : Str := (" and ").data

/-- The `_extract_first_entity` function, translated clause by clause from
the source: empty guard; strip; case-insensitive leftmost suffix-comma
match sliced to `match.end()-1` and stripped; otherwise `' and '` split at a
positive position with a 3-character minimum on the stripped prefix;
otherwise the stripped input. -/
def extract_first_entity (name : Str) : Str :=
  if name = [] then []
  else
    let text := pyStrip name
    let low := pyLower text
    match searchSuffixGo low 0 with
    | some il => pyStrip (text.take (il.1 + il.2 - 1))
    | none =>
      match findFromGo and_sep low 0 with
      | some p =>
        if 0 < p then
          let fp := pyStrip (text.take p)
          if 3 ≤ fp.length then fp else text
        else text
      | none => text

/-- Python dict assignment `d[k] = v` on an insertion-ordered association
list: overwrite in place when the key is present, append otherwise. -/
def dict_insert {α : Type} (d : List (Str × α)) (k : Str) (v : α) : List (Str × α) :=
  if d.any (fun p => p.1 = k) then d.map (fun p => if p.1 = k then (k, v) else p)
  else d ++ [(k, v)]

/-- Python dict lookup `d[k]` / `d.get(k)`. -/
def dlookup {α : Type} (d : List (Str × α)) (k : Str) : Option α :=
  (d.find? (fun p => p.1 = k)).map Prod.snd

/-- Build a Python dict from a sequence of `(key, value)` assignments. -/
def build_dict {α : Type} (rows : List (Str × α)) : List (Str × α) :=
  rows.foldl (fun d r => dict_insert d r.1 r.2) []

/-- A `dim_entity_alias` row. -/
structure AliasRow where
  alias_id : Str
  entity_type : Str
  entity_id : Str
  alias_text : Str
deriving DecidableEq

/-- A `fact_reported_holding` row.  `company_id = none` models a missing /
NaN cell; string sentinels are handled by `is_null`. -/
structure HoldingRow where
  reported_holding_id : Str
  raw_company_name : Str
  company_id : Option Str
deriving DecidableEq

/-- The `_is_null` check: `None`/NaN, or a string whose lower-casing is
`"nan"`, `"none"` or empty. -/
def is_null : Option Str → Bool
  | none => true
  | some s =>
    let l := pyLower s
    l = ("nan").data ∨ l = ("none").data ∨ l = []

/-- The four lookup structures built by `resolve_entities` before its
per-holding loop (the Canonical Registry). -/
structure Registry where
  company_name_to_id : List (Str × Str)
  alias_to_company_id : List (Str × Str)
  normalized_to_company_id : List (Str × Str)
  company_tokens : List (Str × Finset Str × Str)

/-- Registry construction from `dim_company` rows `(company_id, company_name)`
and `dim_entity_alias` rows, exactly as in `resolve_entities` lines 182-213:
exact and alias maps are dicts with overwrite semantics, the normalized and
token maps are first-writer-wins. -/
def build_registry (companies : List (Str × Str)) (aliases : List AliasRow) : Registry :=
  let cmap := companies.foldl (fun d r => dict_insert d (pyStrip (pyLower r.2)) r.1) []
  let amap := aliases.foldl (fun d a =>
    if pyLower a.entity_type = ("company").data then
      dict_insert d (pyStrip (pyLower a.alias_text)) a.entity_id
    else d) []
  let nmap := cmap.foldl (fun d kv =>
    let n := normalize_name kv.1
    if n ≠ [] ∧ ¬ d.any (fun p => p.1 = n) then d ++ [(n, kv.2)] else d) []
  let tmap := cmap.foldl (fun d kv =>
    let tokens := tokenize kv.1
    if tokens ≠ ∅ then
      let n := normalize_name kv.1
      if ¬ d.any (fun p => p.1 = n) then d ++ [(n, tokens, kv.2)] else d
    else d) []
  ⟨cmap, amap, nmap, tmap⟩

/-- Outcome of the matching cascade for one raw name. -/
structure MatchOutcome where
  matched_company_id : Option Str
  match_method : String
  match_confidence : ℚ
deriving DecidableEq

/-- The token-overlap best-match scan: Jaccard at least 0.70 and strictly
better than the best seen so far (first entry wins ties), mirroring the
`best_similarity` / `best_match` loop of the source. -/
def best_token_match (sets : List (Str × Finset Str × Str)) (raw_tokens : Finset Str) :
    ℚ × Option Str :=
  sets.foldl (fun best e =>
    let sim := jaccard_similarity raw_tokens e.2.1
    if mkRat 7 10 ≤ sim ∧ best.1 < sim then (sim, some e.2.2) else best) (mkRat 0 1, none)

/-- The per-holding matching cascade of `resolve_entities` (lines 244-309):
direct, alias, normalized, token-overlap, first-entity, in that order, with
the source's guards and confidence tiers. -/
def match_holding_name (reg : Registry) (raw_name : Str) : MatchOutcome :=
  let raw_name_lower := pyStrip (pyLower raw_name)
  match dlookup reg.company_name_to_id raw_name_lower with
  | some cid => ⟨some cid, "direct", mkRat 1 1⟩
  | none =>
    match dlookup reg.alias_to_company_id raw_name_lower with
    | some cid => ⟨some cid, "alias", mkRat 95 100⟩
    | none =>
      let raw_normalized := normalize_name raw_name
      match (if raw_normalized ≠ [] then dlookup reg.normalized_to_company_id raw_normalized
             else none) with
      | some cid => ⟨some cid, "normalized", mkRat 9 10⟩
      | none =>
        let raw_tokens := tokenize raw_name
        match (if raw_tokens ≠ ∅ ∧ 2 ≤ raw_tokens.card then
                 (best_token_match reg.company_tokens raw_tokens).2
               else none) with
        | some cid => ⟨some cid, "token_overlap", mkRat 8 10⟩
        | none =>
          let first_entity := extract_first_entity raw_name
          match (if first_entity ≠ [] ∧ pyLower first_entity ≠ raw_name_lower then
                   let fn := normalize_name first_entity
                   if fn ≠ [] then dlookup reg.normalized_to_company_id fn else none
                 else none) with
          | some cid => ⟨some cid, "first_entity", mkRat 3 4⟩
          | none => ⟨none, "unresolved", mkRat 0 1⟩

/-- Strategy 1 of the documented cascade: exact case-insensitive match. -/
def strategy_direct (reg : Registry) (raw : Str) : Option MatchOutcome :=
  (dlookup reg.company_name_to_id (pyStrip (pyLower raw))).map
    (fun c => ⟨some c, "direct", mkRat 1 1⟩)

/-- Strategy 2: alias match. -/
def strategy_alias (reg : Registry) (raw : Str) : Option MatchOutcome :=
  (dlookup reg.alias_to_company_id (pyStrip (pyLower raw))).map
    (fun c => ⟨some c, "alias", mkRat 95 100⟩)

/-- Strategy 3: normalized match. -/
def strategy_normalized (reg : Registry) (raw : Str) : Option MatchOutcome :=
  (let n := normalize_name raw
   if n ≠ [] then dlookup reg.normalized_to_company_id n else none).map
    (fun c => ⟨some c, "normalized", mkRat 9 10⟩)

/-- Strategy 4: token-overlap match (two-token guard, Jaccard ≥ 0.70). -/
def strategy_token_overlap (reg : Registry) (raw : Str) : Option MatchOutcome :=
  (let t := tokenize raw
   if t ≠ ∅ ∧ 2 ≤ t.card then (best_token_match reg.company_tokens t).2 else none).map
    (fun c => ⟨some c, "token_overlap", mkRat 8 10⟩)

/-- Strategy 5: first-entity match. -/
def strategy_first_entity (reg : Registry) (raw : Str) : Option MatchOutcome :=
  (let fe := extract_first_entity raw
   if fe ≠ [] ∧ pyLower fe ≠ pyStrip (pyLower raw) then
     let fn := normalize_name fe
     if fn ≠ [] then dlookup reg.normalized_to_company_id fn else none
   else none).map (fun c => ⟨some c, "first_entity", mkRat 3 4⟩)

/-- The documented strategy order of the cascade. -/
def resolution_strategies : List (Registry → Str → Option MatchOutcome) :=
  [strategy_direct, strategy_alias, strategy_normalized,
   strategy_token_overlap, strategy_first_entity]

/-- Specification-level cascade: apply the ordered strategies, first match
wins, otherwise unresolved with confidence 0. -/
def cascade_resolve (reg : Registry) (raw : Str) : MatchOutcome :=
  (resolution_strategies.findSome? (fun s => s reg raw)).getD ⟨none, "unresolved", mkRat 0 1⟩

/-- One `entity_resolution_log` row. -/
structure LogEntry where
  reported_holding_id : Str
  raw_company_name : Str
  matched_company_id : Option Str
  match_method : String
  match_confidence : ℚ
deriving DecidableEq

/-- The log entry written for one processed holding. -/
def mk_log_entry (h : HoldingRow) (o : MatchOutcome) : LogEntry :=
  ⟨h.reported_holding_id, h.raw_company_name, o.matched_company_id,
   o.match_method, o.match_confidence⟩

/-- The per-holding body of the resolver loop, restricted to its effect on
the holding row: skip when `company_id` is non-null, otherwise run the
cascade and assign on a match. -/
def resolve_one (reg : Registry) (h : HoldingRow) : HoldingRow :=
  if is_null h.company_id = false then h
  else
    match (match_holding_name reg h.raw_company_name).matched_company_id with
    | some c => { h with company_id := some c }
    | none => h

/-- The `resolve_entities` loop over the holdings table: returns the updated
holdings (in order), the resolution log (one entry per processed holding),
and the `already_resolved` skip counter. -/
def resolve_entities (reg : Registry) (holdings : List HoldingRow) :
    List HoldingRow × List LogEntry × Nat :=
  holdings.foldl (fun acc h =>
    if is_null h.company_id = false then (acc.1 ++ [h], acc.2.1, acc.2.2 + 1)
    else
      let o := match_holding_name reg h.raw_company_name
      let h' := match o.matched_company_id with
        | some c => { h with company_id := some c }
        | none => h
      (acc.1 ++ [h'], acc.2.1 ++ [mk_log_entry h o], acc.2.2)) ([], [], 0)

/-- Structured form of the skip reasons logged by
`consolidate_company_duplicates_safe` (the f-string payloads carried as
data). -/
inductive SkipReason where
  | single_word (normalized : Str)
  | diff_first_words (first_words : Finset Str)
  | jaccard_below (similarity : ℚ)
  | first_entity_short (first_entity : Str)
deriving DecidableEq

/-- Structured form of the consolidation-group reasons. -/
inductive GroupReason where
  | normalized_eq (normalized : Str)
  | jaccard_high
  | first_entity_eq (first_entity : Str)
deriving DecidableEq

/-- One consolidation group: canonical company, duplicate companies,
method and reason. -/
structure CGroup where
  canonical : Str
  dups : List Str
  method : String
  reason : GroupReason
deriving DecidableEq

/-- All company ids of a group, canonical first. -/
def CGroup.memberCids (g : CGroup) : List Str := g.canonical :: g.dups

/-- Accumulated state of the consolidation pass: formed groups, skipped
candidates, and the `already_grouped` id set. -/
structure ConsAcc where
  groups : List CGroup
  skipped : List (Str × String × SkipReason)
  already : Finset Str
deriving DecidableEq

/-- Initial consolidation state. -/
def ConsAcc.init : ConsAcc := ⟨[], [], ∅⟩

/-- Add one company to its normalized-name bucket (Python dict of lists:
first bucket with the key receives the member, otherwise a new bucket is
appended). -/
def bucket_add : List (Str × List (Str × Str)) → Str → (Str × Str) →
    List (Str × List (Str × Str))
  | [], n, m => [(n, [m])]
  | b :: bs, n, m =>
    if b.1 = n then (b.1, b.2 ++ [m]) :: bs else b :: bucket_add bs n m

/-- Grouping of `company_id_to_name` by normalized name, skipping companies
whose name normalizes to the empty string. -/
def normalized_groups (dict : List (Str × Str)) : List (Str × List (Str × Str)) :=
  dict.foldl (fun acc cn =>
    let n := normalize_name cn.2
    if n = [] then acc else bucket_add acc n cn) []

/-- The `name_score` of `_pick_canonical_name`: prefer names without
`" and "`, then without `'('`, then shortest. -/
def name_score (n : Str) : Nat × Nat × Nat :=
  ((if (findFromGo and_sep (pyLower n) 0).isSome then 1 else 0),
   (if '(' ∈ n then 1 else 0),
   n.length)

/-- Lexicographic comparison on `(score, index)` as performed by Python's
tuple sort in `_pick_canonical_name` (the tie-breaking name component is
never reached because indices are distinct). -/
def scoreIdxLt (a b : (Nat × Nat × Nat) × Nat) : Bool :=
  if a.1.1 < b.1.1 then true else if b.1.1 < a.1.1 then false
  else if a.1.2.1 < b.1.2.1 then true else if b.1.2.1 < a.1.2.1 then false
  else if a.1.2.2 < b.1.2.2 then true else if b.1.2.2 < a.1.2.2 then false
  else a.2 < b.2

/-- One step of the running minimum over scored `(score, index, name)`
entries. -/
def pick_step (acc : Option ((Nat × Nat × Nat) × Nat × Str))
    (e : (Nat × Nat × Nat) × Nat × Str) : Option ((Nat × Nat × Nat) × Nat × Str) :=
  match acc with
  | none => some e
  | some b => if scoreIdxLt (e.1, e.2.1) (b.1, b.2.1) then some e else acc

/-- The `_pick_canonical_name` function: the scored-and-sorted minimum,
returned as `(canonical_name, index)`; `("", -1)` for an empty list. -/
def pick_canonical_name (names : List Str) : Str × Int :=
  match (names.enum.map (fun p => (name_score p.2, p.1, p.2))).foldl pick_step none with
  | some b => (b.2.2, (b.2.1 : Int))
  | none => ([], -1)

/-- Method tag of the normalized stage. -/
def method_normalized : String := "normalized"

/-- Method tag of the token-overlap stage. -/
def method_token : String := "token_overlap"

/-- Method tag of the first-entity stage. -/
def method_first_entity : String := "first_entity"

/-- The first-word set computed by the normalized-stage safety check: the
first token of each member's re-normalized original name. -/
def first_words (ms : List (Str × Str)) : Finset Str :=
  ms.foldl (fun fw m =>
    let onorm := normalize_name m.2
    if onorm ≠ [] then
      match splitWS onorm with
      | [] => fw
      | w :: _ => insert w fw
    else fw) ∅

/-- Processing of one normalized-name bucket by stage 1 of
`consolidate_company_duplicates_safe` (lines 625-659): size guard,
single-word safety skip, first-word safety skip, otherwise canonical pick
and group formation. -/
def stage1_group (st : ConsAcc) (k : Str) (ms : List (Str × Str)) : ConsAcc :=
  if ms.length ≤ 1 then st
  else
    let words := splitWS k
    if words.length < 2 then
      { st with skipped := st.skipped ++ [(k, method_normalized, .single_word k)] }
    else
      let fw := first_words ms
      if 1 < fw.card then
        { st with skipped := st.skipped ++ [(k, method_normalized, .diff_first_words fw)] }
      else
        let names := ms.map Prod.snd
        let pc := pick_canonical_name names
        let canonical_id := (ms.getD pc.2.toNat ([], [])).1
        let duplicate_ids := (ms.filter (fun m => m.1 ≠ canonical_id)).map Prod.fst
        { st with
          groups := st.groups ++ [⟨canonical_id, duplicate_ids, method_normalized, .normalized_eq k⟩],
          already := (st.already ∪ {canonical_id}) ∪ duplicate_ids.toFinset }

/-- Stage 1 (normalized duplicates) of the safe consolidation. -/
def stage1 (dict : List (Str × Str)) (st : ConsAcc) : ConsAcc :=
  (normalized_groups dict).foldl (fun st km => stage1_group st km.1 km.2) st

/-- A `token_data` entry of stage 2. -/
structure TokEntry where
  cid : Str
  name : Str
  tokens : Finset Str
deriving DecidableEq

/-- The `token_data` list of stage 2 (lines 664-671): companies not already
grouped whose normalized token set has at least two tokens. -/
def token_data (dict : List (Str × Str)) (already : Finset Str) : List TokEntry :=
  dict.filterMap (fun cn =>
    if cn.1 ∈ already then none
    else
      if (splitWS (normalize_name cn.2)).toFinset ≠ ∅ ∧
          2 ≤ (splitWS (normalize_name cn.2)).toFinset.card then
        some ⟨cn.1, cn.2, (splitWS (normalize_name cn.2)).toFinset⟩
      else none)

/-- Separator of the stage-2 skip labels (`f"{name1} <-> {name2}"`). -/
def arrow_sep : Str := (" <-> ").data

/-- The inner comparison loop of stage 2 for a fixed head company: returns
the entries joined to the head's group (Jaccard ≥ 0.90), the skip records
for pairs in `[0.70, 0.90)`, and the updated `processed_token` set. -/
def innerScan (t1 : Finset Str) (n1 : Str) :
    List TokEntry → Finset Str → List TokEntry × List (Str × String × SkipReason) × Finset Str
  | [], proc => ([], [], proc)
  | e :: rest, proc =>
    if e.cid ∈ proc then innerScan t1 n1 rest proc
    else
      let sim := jaccard_similarity t1 e.tokens
      if mkRat 9 10 ≤ sim then
        let r := innerScan t1 n1 rest (insert e.cid proc)
        (e :: r.1, r.2.1, r.2.2)
      else if mkRat 7 10 ≤ sim then
        let r := innerScan t1 n1 rest proc
        (r.1, (n1 ++ arrow_sep ++ e.name, method_token, .jaccard_below sim) :: r.2.1, r.2.2)
      else innerScan t1 n1 rest proc

/-- The outer loop of stage 2: for each unprocessed head, scan the tail for
similar companies; a head with at least one joined entry forms a similar
group.  Returns the similar groups (head, joined members), the collected
skip records, and the final `processed_token` set. -/
def outerScan : List TokEntry → Finset Str →
    List (TokEntry × List TokEntry) × List (Str × String × SkipReason) × Finset Str
  | [], proc => ([], [], proc)
  | e :: rest, proc =>
    if e.cid ∈ proc then outerScan rest proc
    else
      let r := innerScan e.tokens e.name rest proc
      let r2 := outerScan rest (insert e.cid r.2.2)
      ((if r.1 ≠ [] then (e, r.1) :: r2.1 else r2.1), r.2.1 ++ r2.2.1, r2.2.2)

/-- Default token entry (for safe indexing). -/
def TokEntry.dflt : TokEntry := ⟨[], [], ∅⟩

/-- Stage 2 (token overlap at Jaccard ≥ 0.90) of the safe consolidation
(lines 661-703): scan, then turn each similar group into a consolidation
group by canonical pick. -/
def stage2 (dict : List (Str × Str)) (st : ConsAcc) : ConsAcc :=
  let td := token_data dict st.already
  let scan := outerScan td ∅
  let st1 := { st with skipped := st.skipped ++ scan.2.1 }
  scan.1.foldl (fun st hg =>
    let grp := hg.1 :: hg.2
    let names := grp.map TokEntry.name
    let pc := pick_canonical_name names
    let canonical_id := (grp.getD pc.2.toNat TokEntry.dflt).cid
    let duplicate_ids := (grp.filter (fun e => e.cid ≠ canonical_id)).map TokEntry.cid
    { st with
      groups := st.groups ++ [⟨canonical_id, duplicate_ids, method_token, .jaccard_high⟩],
      already := (st.already ∪ {canonical_id}) ∪ duplicate_ids.toFinset }) st1

/-- Stage 3 (first-entity matches) of the safe consolidation
(lines 706-744): for each not-yet-grouped multi-entity name whose first
entity normalizes to at least two words, merge with the first other
not-yet-grouped company having the same normalized name. -/
def stage3 (dict : List (Str × Str)) : List (Str × Str) → ConsAcc → ConsAcc
  | [], st => st
  | cn :: rest, st =>
    if cn.1 ∈ st.already then stage3 dict rest st
    else
      let first_entity := extract_first_entity cn.2
      if pyLower first_entity = pyLower cn.2 then stage3 dict rest st
      else
        let first_normalized := normalize_name first_entity
        if first_normalized = [] then stage3 dict rest st
        else if (splitWS first_normalized).length < 2 then
          stage3 dict rest
            { st with skipped := st.skipped ++
                [(cn.2, method_first_entity, .first_entity_short first_entity)] }
        else
          match dict.find? (fun oth =>
              ¬ oth.1 = cn.1 ∧ oth.1 ∉ st.already ∧ normalize_name oth.2 = first_normalized) with
          | none => stage3 dict rest st
          | some other =>
            let names := [cn.2, other.2]
            let pc := pick_canonical_name names
            let cd := if pc.2 = 0 then (cn.1, [other.1]) else (other.1, [cn.1])
            stage3 dict rest
              { st with
                groups := st.groups ++ [⟨cd.1, cd.2, method_first_entity, .first_entity_eq first_entity⟩],
                already := (st.already ∪ {cd.1}) ∪ cd.2.toFinset }

/-- The full group-finding pass of `consolidate_company_duplicates_safe`
over `company_id_to_name`. -/
def consolidation_pass (dict : List (Str × Str)) : ConsAcc :=
  stage3 dict dict (stage2 dict (stage1 dict ConsAcc.init))

/-- The `consolidation_map` (`duplicate_id -> canonical_id`) built from the
consolidation groups by Python dict assignment. -/
def consolidation_map (groups : List CGroup) : List (Str × Str) :=
  groups.foldl (fun m g => g.dups.foldl (fun m d => dict_insert m d g.canonical) m) []

/-- Remap of one holding by the consolidation map (lines 755-762): only a
non-null `company_id` that is a key of the map is rewritten. -/
def remap_holding (cmap : List (Str × Str)) (h : HoldingRow) : HoldingRow :=
  if is_null h.company_id = false then
    match h.company_id with
    | some s =>
      match dlookup cmap s with
      | some c => { h with company_id := some c }
      | none => h
    | none => h
  else h

/-- Parse a decimal integer the way Python `int(str)` does on the strings
relevant here: optional surrounding whitespace, optional sign, at least one
digit, nothing else. -/
def pyParseInt (s : Str) : Option Int :=
  let t := pyStrip s
  let core : Option (Bool × Str) :=
    match t with
    | '-' :: rest => some (true, rest)
    | '+' :: rest => some (false, rest)
    | _ => some (false, t)
  match core with
  | some (neg, ds) =>
    if ds ≠ [] ∧ ds.all (fun c => c.isDigit) then
      let n : Nat := ds.foldl (fun acc c => acc * 10 + (c.toNat - 48)) 0
      some (if neg then -(n : Int) else (n : Int))
    else none
  | none => none

/-- Split a string on `'_'` (Python `str.split("_")`). -/
def splitUnderscore (s : Str) : List Str :=
  let rec go : Str → Str → List Str
    | [], acc => [acc.reverse]
    | c :: rest, acc =>
      if c = '_' then acc.reverse :: go rest [] else go rest (c :: acc)
  go s []

/-- The `max_alias_id` scan (lines 767-776): over alias ids of the form
`alias_<n>`, take the largest parsed numeric part, starting from 0. -/
def max_alias_id (aliases : List AliasRow) : Int :=
  aliases.foldl (fun m a =>
    if leadsWith ("alias_").data a.alias_id then
      match (splitUnderscore a.alias_id).getD 1 [] |> pyParseInt with
      | some n => max m n
      | none => m
    else m) 0

/-- Format `f"alias_{n:04d}"` for the non-negative ids produced here. -/
def mk_alias_id (n : Int) : Str :=
  let digits := (Nat.repr n.toNat).data
  let pad := if digits.length < 4 then List.replicate (4 - digits.length) '0' else []
  ("alias_").data ++ pad ++ digits

/-- One step of the new-alias construction: append an alias row for the
duplicate unless its lower-cased name was already seen. -/
def alias_inner_step (dict : List (Str × Str)) (g : CGroup)
    (st : List AliasRow × Finset Str × Int) (d : Str) : List AliasRow × Finset Str × Int :=
  if pyLower ((dlookup dict d).getD []) ∈ st.2.1 then st
  else
    (st.1 ++ [⟨mk_alias_id (st.2.2 + 1), ("company").data, g.canonical,
       (dlookup dict d).getD []⟩],
     insert (pyLower ((dlookup dict d).getD [])) st.2.1, st.2.2 + 1)

/-- The new-alias construction loop (lines 764-789): one alias row per
duplicate whose name is not yet present (case-insensitively) among the
existing alias texts or the aliases added so far. -/
def build_new_aliases (dict : List (Str × Str)) (groups : List CGroup)
    (existing0 : Finset Str) (start_id : Int) : List AliasRow :=
  (groups.foldl (fun st g =>
    g.dups.foldl (alias_inner_step dict g) st) (([], existing0, start_id))).1

/-- The table-level effect of `consolidate_company_duplicates_safe`:
`dim_company` is read but never written; holdings pointing at a duplicate
are remapped; new alias rows are appended.  Returns the post-state of the
three tables together with the consolidation state. -/
def consolidate_company_duplicates_safe (companies : List (Str × Str))
    (holdings : List HoldingRow) (aliases : List AliasRow) :
    List (Str × Str) × List HoldingRow × List AliasRow × ConsAcc :=
  let dict := build_dict companies
  let acc := consolidation_pass dict
  let cmap := consolidation_map acc.groups
  let holdings' := holdings.map (remap_holding cmap)
  let existing0 := (aliases.map (fun a => pyLower a.alias_text)).toFinset
  let new_rows := build_new_aliases dict acc.groups existing0 (max_alias_id aliases)
  (companies, holdings', aliases ++ new_rows, acc)

/-- Formalization of claim C7's wording of `_extract_first_entity`:
(a) a legal-suffix TOKEN (at a word boundary) immediately followed by a
comma yields the text up to and including the suffix; (b) otherwise a
`" and "` occurrence with a prefix of at least 3 characters yields that
prefix; (c) otherwise the input is returned unchanged. -/
def extract_first_entity_claim (name : Str) : Str :=
  let low := pyLower name
  match (List.range low.length).findSome? (fun i =>
    suffix_alts.findSome? (fun alt =>
      if ((i = 0 : Bool) ||
            (match low.get? (i - 1) with
             | some c => pyIsSpace c
             | none => false))
          && leadsWith alt (low.drop i) && headIsComma (low.drop (i + alt.length))
      then some (i + alt.length) else none)) with
  | some e => name.take e
  | none =>
    match (List.range low.length).findSome? (fun i =>
      if leadsWith and_sep (low.drop i) then some i else none) with
    | some p => if 3 ≤ p then name.take p else name
    | none => name

/-- End position (after the suffix itself) of the leftmost occurrence of a
legal-suffix substring followed by optional whitespace and a comma, written
as a positional search. -/
def suffixTokenEnd (low : Str) : Option Nat :=
  (List.range low.length).findSome? (fun i =>
    suffix_alts.findSome? (fun alt =>
      if leadsWith alt (low.drop i) && commaAfterWs (low.drop (i + alt.length))
      then some (i + alt.length) else none))

/-- Position of the leftmost `" and "` occurrence, written as a positional
search. -/
def findAndPos (low : Str) : Option Nat :=
  (List.range low.length).findSome? (fun i =>
    if leadsWith and_sep (low.drop i) then some i else none)

/-- The amended description of `_extract_first_entity` (claim C7 corrected):
the input is first stripped of surrounding whitespace; (a) if one of
inc/llc/lp/l.p./corp/corporation/ltd/limited occurs case-insensitively as a
SUBSTRING (not necessarily a whole token) followed by optional whitespace
and a comma, the result is the stripped text up to and including the
leftmost such suffix occurrence (whitespace and comma excluded);
(b) otherwise, if `" and "` occurs in the lower-cased stripped text and the
whitespace-trimmed prefix before its first occurrence has at least 3
characters, the result is that trimmed prefix; (c) otherwise the result is
the STRIPPED input (not the input verbatim). -/
def extract_first_entity_amended (name : Str) : Str :=
  if name = [] then []
  else
    let text := pyStrip name
    let low := pyLower text
    match suffixTokenEnd low with
    | some e => text.take e
    | none =>
      match findAndPos low with
      | some p =>
        let fp := pyStrip (text.take p)
        if 3 ≤ fp.length then fp else text
      | none => text

/-- Log entries produced by one run, as a function of the input rows. -/
def expected_log (reg : Registry) (hs : List HoldingRow) : List LogEntry :=
  hs.filterMap (fun h =>
    if is_null h.company_id then
      some (mk_log_entry h (match_holding_name reg h.raw_company_name))
    else none)

/-- A good normalization token: nonempty, free of whitespace and of the
normalizer's punctuation, lower-case-fixed, and not a suffix or connector
word. -/
def GoodTok (t : Str) : Prop :=
  t ≠ [] ∧ (∀ c ∈ t, pyIsSpace c = false ∧ isPunct c = false ∧ pyToLower c = c) ∧
  t ∉ company_suffixes ∧ t ∉ connector_words

/-- The token list underlying `normalize_name`. -/
def norm_toks (s : Str) : List Str :=
  (splitWS (replacePunct (removeParens (pyStrip (pyLower s))))).filterMap (fun w =>
    let wc := pyStrip w
    if wc ≠ [] ∧ wc ∉ company_suffixes ∧ wc ∉ connector_words then some wc else none)

/-- Skip entries that are not of the different-first-words shape. -/
def NotDiffFW (e : Str × String × SkipReason) : Prop :=
  ∀ fw : Finset Str, e.2.2 ≠ SkipReason.diff_first_words fw

/-- The consolidation group (if any) produced by stage 1 for one
normalized-name bucket. -/
def stage1_group_result (k : Str) (ms : List (Str × Str)) : Option CGroup :=
  if ms.length ≤ 1 then none
  else if (splitWS k).length < 2 then none
  else if 1 < (first_words ms).card then none
  else
    let names := ms.map Prod.snd
    let pc := pick_canonical_name names
    let canonical_id := (ms.getD pc.2.toNat ([], [])).1
    let duplicate_ids := (ms.filter (fun m => m.1 ≠ canonical_id)).map Prod.fst
    some ⟨canonical_id, duplicate_ids, method_normalized, .normalized_eq k⟩

/-- The skip record (if any) produced by stage 1 for one bucket. -/
def stage1_skip_result (k : Str) (ms : List (Str × Str)) : Option (Str × String × SkipReason) :=
  if ms.length ≤ 1 then none
  else if (splitWS k).length < 2 then some (k, method_normalized, .single_word k)
  else if 1 < (first_words ms).card then
    some (k, method_normalized, .diff_first_words (first_words ms))
  else none

/-- The entries of the inner comparison loop that join the head's similar
group: not yet processed and Jaccard at least 0.90 against the head. -/
def innerJoins (t1 : Finset Str) (proc : Finset Str) (rest : List TokEntry) :
    List TokEntry :=
  rest.filter (fun e => e.cid ∉ proc ∧ mkRat 9 10 ≤ jaccard_similarity t1 e.tokens)

/-- The skip records of the inner comparison loop: one per compared entry
whose Jaccard similarity against the head lies in `[0.70, 0.90)`. -/
def innerSkips (t1 : Finset Str) (n1 : Str) (proc : Finset Str) (rest : List TokEntry) :
    List (Str × String × SkipReason) :=
  (rest.filter (fun e => e.cid ∉ proc ∧ mkRat 7 10 ≤ jaccard_similarity t1 e.tokens ∧
      jaccard_similarity t1 e.tokens < mkRat 9 10)).map
    (fun e => (n1 ++ arrow_sep ++ e.name, method_token,
      SkipReason.jaccard_below (jaccard_similarity t1 e.tokens)))

/-- The member company ids of a group list, flattened in order. -/
def flatMembers (gs : List CGroup) : List Str := gs.flatMap CGroup.memberCids

/-- The `(duplicate_id, canonical_id)` pairs contributed by a group list,
flattened in order. -/
def flatDups (gs : List CGroup) : List (Str × Str) :=
  gs.flatMap (fun g => g.dups.map (fun d => (d, g.canonical)))

/-- The canonical company id picked by stage 2 for one similar group. -/
def stage2_canonical (hg : TokEntry × List TokEntry) : Str :=
  ((hg.1 :: hg.2).getD
    (pick_canonical_name ((hg.1 :: hg.2).map TokEntry.name)).2.toNat TokEntry.dflt).cid

/-- The duplicate company ids of one stage-2 similar group. -/
def stage2_dups (hg : TokEntry × List TokEntry) : List Str :=
  ((hg.1 :: hg.2).filter (fun e => e.cid ≠ stage2_canonical hg)).map TokEntry.cid

/-- The fold step of stage 2 that turns one similar group into a
consolidation group and marks its members as grouped. -/
def stage2_step (st : ConsAcc) (hg : TokEntry × List TokEntry) : ConsAcc :=
  { st with
    groups := st.groups ++
      [⟨stage2_canonical hg, stage2_dups hg, method_token, .jaccard_high⟩],
    already := (st.already ∪ {stage2_canonical hg}) ∪ (stage2_dups hg).toFinset }

/-! ## Basic lemmas about the string primitives -/

theorem char_toNat_ofNat {n : Nat} (h : n < 55296) : (Char.ofNat n).toNat = n := by
  have hv : n.isValidChar := Or.inl h
  simp only [Char.ofNat, hv, Char.toNat, Char.ofNatAux, dif_pos]
  simp [UInt32.toNat, BitVec.toNat_ofNatLt]

theorem pyToLower_idem (c : Char) : pyToLower (pyToLower c) = pyToLower c := by
  unfold pyToLower
  split
  · next h =>
    have hto : (Char.ofNat (c.toNat + 32)).toNat = c.toNat + 32 :=
      char_toNat_ofNat (by omega)
    rw [if_neg (by rw [hto]; omega)]
  · rfl

theorem dropWhile_head?_false {p : Char → Bool} {l : Str} {c : Char}
    (h : (l.dropWhile p).head? = some c) : p c = false := by
  induction l with
  | nil => simp at h
  | cons a rest ih =>
    by_cases hp : p a
    · rw [List.dropWhile_cons_of_pos hp] at h; exact ih h
    · rw [List.dropWhile_cons_of_neg hp] at h
      simp at h
      rw [← h]
      simpa using hp

theorem dropWhile_eq_self_of_head {p : Char → Bool} {l : Str}
    (h : ∀ c, l.head? = some c → p c = false) : l.dropWhile p = l := by
  cases l with
  | nil => rfl
  | cons a rest => exact List.dropWhile_cons_of_neg (by simp [h a rfl])

theorem pyStrip_eq_self {l : Str}
    (h1 : ∀ c, l.head? = some c → pyIsSpace c = false)
    (h2 : ∀ c, l.getLast? = some c → pyIsSpace c = false) : pyStrip l = l := by
  unfold pyStrip
  rw [dropWhile_eq_self_of_head h1]
  rw [dropWhile_eq_self_of_head (by simpa using h2)]
  exact List.reverse_reverse l

theorem getLast?_of_suffix {l L : Str} {c : Char} (hsuf : l <:+ L)
    (h : l.getLast? = some c) : L.getLast? = some c := by
  obtain ⟨t, ht⟩ := hsuf
  have hne : l ≠ [] := by rintro rfl; simp at h
  rw [← ht, List.getLast?_append_of_ne_nil _ hne]
  exact h

theorem pyStrip_head?_false {l : Str} {c : Char}
    (h : (pyStrip l).head? = some c) : pyIsSpace c = false := by
  unfold pyStrip at h
  rw [List.head?_reverse] at h
  have hsuf : ((l.dropWhile pyIsSpace).reverse.dropWhile pyIsSpace) <:+
      (l.dropWhile pyIsSpace).reverse := List.dropWhile_suffix _
  have hlast : (l.dropWhile pyIsSpace).reverse.getLast? = some c :=
    getLast?_of_suffix hsuf h
  rw [List.getLast?_reverse] at hlast
  exact dropWhile_head?_false hlast

theorem pyStrip_getLast?_false {l : Str} {c : Char}
    (h : (pyStrip l).getLast? = some c) : pyIsSpace c = false := by
  unfold pyStrip at h
  rw [List.getLast?_reverse] at h
  exact dropWhile_head?_false h

theorem pyStrip_idem (l : Str) : pyStrip (pyStrip l) = pyStrip l :=
  pyStrip_eq_self (fun _ h => pyStrip_head?_false h) (fun _ h => pyStrip_getLast?_false h)

/-! ## Dict lemmas -/

theorem mem_dict_insert {α : Type} {d : List (Str × α)} {k : Str} {v : α} {q : Str × α}
    (h : q ∈ dict_insert d k v) : q ∈ d ∨ q = (k, v) := by
  unfold dict_insert at h
  split at h
  · rcases List.mem_map.mp h with ⟨p, hp, hq⟩
    by_cases hk : p.1 = k
    · right; rw [if_pos hk] at hq; exact hq.symm
    · left; rw [if_neg hk] at hq; exact hq ▸ hp
  · rcases List.mem_append.mp h with h | h
    · exact Or.inl h
    · right; simpa using h

theorem dlookup_mem {α : Type} {d : List (Str × α)} {k : Str} {v : α}
    (h : dlookup d k = some v) : (k, v) ∈ d := by
  unfold dlookup at h
  rcases hf : d.find? (fun p => p.1 = k) with _ | q
  · rw [hf] at h; simp at h
  · rw [hf] at h
    have hq : q ∈ d := List.mem_of_find?_eq_some hf
    have hk : q.1 = k := by simpa using List.find?_some hf
    have hv : q.2 = v := by simpa using h
    have : q = (k, v) := Prod.ext hk hv
    exact this ▸ hq

/-- Key property preservation through a fold of dict inserts. -/
theorem foldl_dict_insert_key_prop {α β : Type} (P : Str → Prop)
    (rows : List β) (key : β → Str) (val : β → α) :
    ∀ (acc : List (Str × α)), (∀ p ∈ acc, P p.1) → (∀ r ∈ rows, P (key r)) →
    ∀ p ∈ rows.foldl (fun d r => dict_insert d (key r) (val r)) acc, P p.1 := by
  induction rows with
  | nil => intro acc hacc _ p hp; exact hacc p hp
  | cons r rest ih =>
    intro acc hacc hrows p hp
    refine ih (dict_insert acc (key r) (val r)) ?_ (fun r' hr' => hrows r' (by simp [hr'])) p hp
    intro q hq
    rcases mem_dict_insert hq with h | h
    · exact hacc q h
    · rw [h]; exact hrows r (by simp)

theorem build_registry_exact_key_stripped (companies : List (Str × Str))
    (aliases : List AliasRow) :
    ∀ p ∈ (build_registry companies aliases).company_name_to_id, pyStrip p.1 = p.1 := by
  intro p hp
  have := foldl_dict_insert_key_prop (fun k => pyStrip k = k) companies
    (fun r => pyStrip (pyLower r.2)) (fun r => r.1) [] (by simp)
    (fun r _ => pyStrip_idem (pyLower r.2)) p
  exact this hp

/-! ## Claim C1: cascade order and direct-match precedence -/

theorem match_holding_name_eq_cascade (reg : Registry) (raw : Str) :
    match_holding_name reg raw = cascade_resolve reg raw := by
  unfold match_holding_name cascade_resolve resolution_strategies
  unfold strategy_direct strategy_alias strategy_normalized strategy_token_overlap
    strategy_first_entity
  simp only [List.findSome?_cons]
  cases h1 : dlookup reg.company_name_to_id (pyStrip (pyLower raw)) with
  | some cid => simp [h1]
  | none =>
    simp only [h1, Option.map_none']
    cases h2 : dlookup reg.alias_to_company_id (pyStrip (pyLower raw)) with
    | some cid => simp [h2]
    | none =>
      simp only [h2, Option.map_none']
      cases h3 : (if normalize_name raw ≠ [] then
          dlookup reg.normalized_to_company_id (normalize_name raw) else none) with
      | some cid => simp [h3]
      | none =>
        simp only [h3, Option.map_none']
        cases h4 : (if tokenize raw ≠ ∅ ∧ 2 ≤ (tokenize raw).card then
            (best_token_match reg.company_tokens (tokenize raw)).2 else none) with
        | some cid => simp [h4]
        | none =>
          simp only [h4, Option.map_none']
          cases h5 : (if extract_first_entity raw ≠ [] ∧
              pyLower (extract_first_entity raw) ≠ pyStrip (pyLower raw) then
              (if normalize_name (extract_first_entity raw) ≠ [] then
                dlookup reg.normalized_to_company_id (normalize_name (extract_first_entity raw))
               else none) else none) with
          | some cid => simp [h5]
          | none => simp [h5]

/-- Claim C1 (confirmed).  The resolver tries the five strategies in the
fixed order direct (1.0), alias (0.95), normalized (0.90), token overlap
(0.80), first entity (0.75) and the first strategy that matches determines
company id, method and confidence; in particular a raw name whose
lower-cased form is a key of the exact company-name map is always reported
as a direct match with confidence 1.0, regardless of any other available
match. -/
theorem c1_cascade_direct_precedence (companies : List (Str × Str))
    (aliases : List AliasRow) (raw cid : Str) :
    match_holding_name (build_registry companies aliases) raw =
      cascade_resolve (build_registry companies aliases) raw ∧
    (dlookup (build_registry companies aliases).company_name_to_id (pyLower raw) = some cid →
      match_holding_name (build_registry companies aliases) raw =
        ⟨some cid, "direct", mkRat 1 1⟩) := by
  constructor
  · exact match_holding_name_eq_cascade _ raw
  · intro h
    have hmem := dlookup_mem h
    have hstr : pyStrip (pyLower raw) = pyLower raw :=
      build_registry_exact_key_stripped companies aliases _ hmem
    unfold match_holding_name
    rw [hstr]
    simp [h]

/-- Witness for C1: a registry in which the raw name has both a direct
match (to `c1`) and an alias match (to `c2`); the resolver reports the
direct match with confidence 1.0. -/
theorem c1_cascade_direct_precedence_witness :
    dlookup (build_registry [((("c1").data : Str), ("Acme").data)]
        [⟨("a1").data, ("company").data, ("c2").data, ("acme").data⟩]).company_name_to_id
        (pyLower ("Acme").data) = some (("c1").data) ∧
    dlookup (build_registry [((("c1").data : Str), ("Acme").data)]
        [⟨("a1").data, ("company").data, ("c2").data, ("acme").data⟩]).alias_to_company_id
        (pyLower ("Acme").data) = some (("c2").data) ∧
    match_holding_name (build_registry [((("c1").data : Str), ("Acme").data)]
        [⟨("a1").data, ("company").data, ("c2").data, ("acme").data⟩]) (("Acme").data) =
      ⟨some (("c1").data), "direct", mkRat 1 1⟩ :=
  ⟨by decide, by decide,
   (c1_cascade_direct_precedence [((("c1").data : Str), ("Acme").data)]
      [⟨("a1").data, ("company").data, ("c2").data, ("acme").data⟩]
      (("Acme").data) (("c1").data)).2 (by decide)⟩

/-! ## Claims C2 and C6: the resolver loop -/

theorem resolve_entities_go (reg : Registry) (hs : List HoldingRow) :
    ∀ acc : List HoldingRow × List LogEntry × Nat,
    hs.foldl (fun acc h =>
      if is_null h.company_id = false then (acc.1 ++ [h], acc.2.1, acc.2.2 + 1)
      else
        let o := match_holding_name reg h.raw_company_name
        let h' := match o.matched_company_id with
          | some c => { h with company_id := some c }
          | none => h
        (acc.1 ++ [h'], acc.2.1 ++ [mk_log_entry h o], acc.2.2)) acc =
      (acc.1 ++ hs.map (resolve_one reg), acc.2.1 ++ expected_log reg hs,
       acc.2.2 + (hs.filter (fun h => is_null h.company_id = false)).length) := by
  induction hs with
  | nil => intro acc; simp [expected_log]
  | cons h rest ih =>
    intro acc
    rw [List.foldl_cons]
    by_cases hn : is_null h.company_id = false
    · rw [if_pos hn, ih]
      have h1 : resolve_one reg h = h := by simp [resolve_one, hn]
      simp [expected_log, hn, h1, List.filter_cons]
      omega
    · rw [if_neg hn, ih]
      have hn' : is_null h.company_id = true := by
        cases hv : is_null h.company_id
        · exact absurd hv hn
        · rfl
      have h1 : resolve_one reg h =
          (match (match_holding_name reg h.raw_company_name).matched_company_id with
           | some c => { h with company_id := some c }
           | none => h) := by
        unfold resolve_one
        rw [if_neg (by simp [hn'])]
      simp only [expected_log, List.filterMap_cons, hn', if_pos, List.map_cons, h1,
        List.filter_cons]
      simp [hn']

theorem resolve_entities_eq (reg : Registry) (hs : List HoldingRow) :
    resolve_entities reg hs = (hs.map (resolve_one reg), expected_log reg hs,
      (hs.filter (fun h => is_null h.company_id = false)).length) := by
  unfold resolve_entities
  rw [resolve_entities_go reg hs ([], [], 0)]
  simp

theorem resolve_one_skip (reg : Registry) (h : HoldingRow)
    (hn : is_null h.company_id = false) : resolve_one reg h = h := by
  simp [resolve_one, hn]

theorem resolve_one_idem (reg : Registry) (h : HoldingRow) :
    resolve_one reg (resolve_one reg h) = resolve_one reg h := by
  by_cases hn : is_null h.company_id = false
  · rw [resolve_one_skip reg h hn, resolve_one_skip reg h hn]
  · have hn' : is_null h.company_id = true := by
      cases hv : is_null h.company_id
      · exact absurd hv hn
      · rfl
    have h1 : resolve_one reg h =
        (match (match_holding_name reg h.raw_company_name).matched_company_id with
         | some c => { h with company_id := some c }
         | none => h) := by
      unfold resolve_one
      rw [if_neg (by simp [hn'])]
    cases hm : (match_holding_name reg h.raw_company_name).matched_company_id with
    | none =>
      have h2 : resolve_one reg h = h := by rw [h1, hm]
      rw [h2, h2]
    | some c =>
      have h2 : resolve_one reg h = { h with company_id := some c } := by rw [h1, hm]
      rw [h2]
      by_cases hc : is_null (some c : Option Str) = false
      · exact resolve_one_skip reg _ hc
      · have hc' : is_null (some c : Option Str) = true := by
          cases hv : is_null (some c : Option Str)
          · exact absurd hv hc
          · rfl
        unfold resolve_one
        rw [if_neg (by simp [hc'])]
        simp only [hm]

/-- Claim C2 (confirmed).  The resolver never changes the `company_id` of a
holding whose `company_id` is non-null (such holdings are skipped and
counted in the separate `already_resolved` counter), and a second run on
the output of a first run with the same registry leaves every holding
unchanged. -/
theorem c2_resolver_idempotent (reg : Registry) (hs : List HoldingRow) :
    (∀ h : HoldingRow, is_null h.company_id = false → resolve_one reg h = h) ∧
    (resolve_entities reg hs).1 = hs.map (resolve_one reg) ∧
    (resolve_entities reg hs).2.2 =
      (hs.filter (fun h => is_null h.company_id = false)).length ∧
    (resolve_entities reg (resolve_entities reg hs).1).1 = (resolve_entities reg hs).1 := by
  refine ⟨fun h => resolve_one_skip reg h, ?_, ?_, ?_⟩
  · rw [resolve_entities_eq]
  · rw [resolve_entities_eq]
  · rw [resolve_entities_eq, resolve_entities_eq]
    simp only [List.map_map]
    exact List.map_congr_left (fun h _ => resolve_one_idem reg h)

/-- Witness for C2: a holding already carrying `company_id = "cX"` is
returned untouched even though its raw name has a direct match. -/
theorem c2_resolver_idempotent_witness :
    is_null (some (("cX").data) : Option Str) = false ∧
    resolve_one (build_registry [((("c1").data : Str), ("Acme").data)] [])
      ⟨("h1").data, ("Acme").data, some (("cX").data)⟩ =
      ⟨("h1").data, ("Acme").data, some (("cX").data)⟩ :=
  ⟨by decide,
   (c2_resolver_idempotent (build_registry [((("c1").data : Str), ("Acme").data)] [])
      []).1 ⟨("h1").data, ("Acme").data, some (("cX").data)⟩ (by decide)⟩

/-- Claim C6 (confirmed).  In the embedding every operation of the
per-holding loop body is a total function of the row and the read-only
registry, so no exception can arise or escape: the loop is a map that
processes every holding, a holding matching nothing is recorded in the log
as `unresolved` with confidence 0, and the outcome of one row never
prevents the processing of subsequent rows. -/
theorem c6_no_exception_partial_failure_isolation (reg : Registry) (hs : List HoldingRow) :
    (resolve_entities reg hs).1.length = hs.length ∧
    (resolve_entities reg hs).1 = hs.map (resolve_one reg) ∧
    (resolve_entities reg hs).2.1 = expected_log reg hs ∧
    (∀ raw : Str, (match_holding_name reg raw).matched_company_id = none →
      (match_holding_name reg raw).match_method = "unresolved" ∧
      (match_holding_name reg raw).match_confidence = mkRat 0 1) := by
  refine ⟨?_, ?_, ?_, ?_⟩
  · rw [resolve_entities_eq]; simp
  · rw [resolve_entities_eq]
  · rw [resolve_entities_eq]
  · intro raw hnone
    have hcas := match_holding_name_eq_cascade reg raw
    rw [hcas] at hnone ⊢
    unfold cascade_resolve at hnone ⊢
    cases hf : (resolution_strategies.findSome? fun s => s reg raw) with
    | none => exact ⟨rfl, rfl⟩
    | some o =>
      exfalso
      rw [hf] at hnone
      simp only [Option.getD_some] at hnone
      rcases List.exists_of_findSome?_eq_some hf with ⟨s, hs, hso⟩
      have : o.matched_company_id ≠ none := by
        simp only [resolution_strategies, List.mem_cons, List.not_mem_nil, or_false] at hs
        rcases hs with rfl | rfl | rfl | rfl | rfl
        · unfold strategy_direct at hso
          rcases Option.map_eq_some'.mp hso with ⟨c, _, rfl⟩; simp
        · unfold strategy_alias at hso
          rcases Option.map_eq_some'.mp hso with ⟨c, _, rfl⟩; simp
        · unfold strategy_normalized at hso
          rcases Option.map_eq_some'.mp hso with ⟨c, _, rfl⟩; simp
        · unfold strategy_token_overlap at hso
          rcases Option.map_eq_some'.mp hso with ⟨c, _, rfl⟩; simp
        · unfold strategy_first_entity at hso
          rcases Option.map_eq_some'.mp hso with ⟨c, _, rfl⟩; simp
      exact this hnone

/-- Witness for C6: an unmatched raw name is logged as unresolved. -/
theorem c6_no_exception_partial_failure_isolation_witness :
    (match_holding_name (build_registry [] []) (("Zzz").data)).matched_company_id = none ∧
    (match_holding_name (build_registry [] []) (("Zzz").data)).match_method = "unresolved" ∧
    (match_holding_name (build_registry [] []) (("Zzz").data)).match_confidence = mkRat 0 1 :=
  ⟨by decide,
   ((c6_no_exception_partial_failure_isolation (build_registry [] []) []).2.2.2
      (("Zzz").data) (by decide)).1,
   ((c6_no_exception_partial_failure_isolation (build_registry [] []) []).2.2.2
      (("Zzz").data) (by decide)).2⟩

/-! ## Token machinery for normalization -/

theorem head?_mem {l : Str} {c : Char} (h : l.head? = some c) : c ∈ l := by
  cases l with
  | nil => simp at h
  | cons a t => simp at h; rw [h]; simp

theorem getLast?_mem {l : Str} {c : Char} (h : l.getLast? = some c) : c ∈ l := by
  have h2 : l.reverse.head? = some c := by rw [List.head?_reverse]; exact h
  have := head?_mem h2
  simpa using this

theorem mem_pyStrip {l : Str} {c : Char} (h : c ∈ pyStrip l) : c ∈ l := by
  unfold pyStrip at h
  rw [List.mem_reverse] at h
  have h1 := ((List.dropWhile_suffix pyIsSpace).sublist).mem h
  rw [List.mem_reverse] at h1
  exact ((List.dropWhile_suffix pyIsSpace).sublist).mem h1

theorem dropThroughClose_suffix : ∀ {l after : Str},
    dropThroughClose l = some after → after <:+ l := by
  intro l
  induction l with
  | nil => intro after h; simp [dropThroughClose] at h
  | cons a rest ih =>
    intro after h
    unfold dropThroughClose at h
    by_cases ha : a = ')'
    · rw [if_pos ha] at h
      cases h
      exact ⟨[a], rfl⟩
    · rw [if_neg ha] at h
      exact (ih h).trans (List.suffix_cons a rest)

theorem mem_removeParensGo : ∀ (fuel : Nat) {l : Str} {c : Char},
    c ∈ removeParensGo fuel l → c ∈ l := by
  intro fuel
  induction fuel with
  | zero => intro l c h; simp [removeParensGo] at h
  | succ f ih =>
    intro l c h
    cases l with
    | nil => simp [removeParensGo] at h
    | cons a rest =>
      unfold removeParensGo at h
      split at h
      · next hcond =>
        rcases hd : dropThroughClose rest with _ | after
        · rw [hd] at h
          rcases List.mem_cons.mp h with rfl | h
          · simp
          · exact List.mem_cons_of_mem _ (ih h)
        · rw [hd] at h
          exact List.mem_cons_of_mem _ ((dropThroughClose_suffix hd).sublist.mem (ih h))
      · rcases List.mem_cons.mp h with rfl | h
        · simp
        · exact List.mem_cons_of_mem _ (ih h)

theorem mem_removeParens {l : Str} {c : Char} (h : c ∈ removeParens l) : c ∈ l :=
  mem_removeParensGo l.length h

theorem splitWSGo_token_props : ∀ (fuel : Nat) {l : Str} {t : Str},
    t ∈ splitWSGo fuel l → t ≠ [] ∧ ∀ c ∈ t, pyIsSpace c = false ∧ c ∈ l := by
  intro fuel
  induction fuel with
  | zero => intro l t h; simp [splitWSGo] at h
  | succ f ih =>
    intro l t h
    cases l with
    | nil => simp [splitWSGo] at h
    | cons a rest =>
      unfold splitWSGo at h
      by_cases ha : pyIsSpace a
      · rw [if_pos ha] at h
        obtain ⟨hne, hc⟩ := ih h
        exact ⟨hne, fun c hcm => ⟨(hc c hcm).1, List.mem_cons_of_mem _ (hc c hcm).2⟩⟩
      · rw [if_neg ha] at h
        rcases List.mem_cons.mp h with rfl | h
        · refine ⟨by simp, ?_⟩
          intro c hcm
          rcases List.mem_cons.mp hcm with rfl | hcm
          · exact ⟨by simpa using ha, by simp⟩
          · have hp := List.mem_takeWhile_imp hcm
            have hm := ((List.takeWhile_prefix _).sublist).mem hcm
            refine ⟨?_, List.mem_cons_of_mem _ hm⟩
            simpa using hp
        · obtain ⟨hne, hc⟩ := ih h
          refine ⟨hne, fun c hcm => ⟨(hc c hcm).1, ?_⟩⟩
          exact List.mem_cons_of_mem _ (((List.dropWhile_suffix _).sublist).mem (hc c hcm).2)

theorem splitWS_token_props {l t : Str} (h : t ∈ splitWS l) :
    t ≠ [] ∧ ∀ c ∈ t, pyIsSpace c = false ∧ c ∈ l :=
  splitWSGo_token_props l.length h

theorem joinSpace_cons (t : Str) (ts : List Str) :
    joinSpace (t :: ts) = t ++ (if ts = [] then [] else ' ' :: joinSpace ts) := by
  cases ts with
  | nil => simp [joinSpace]
  | cons u us => simp [joinSpace]

theorem joinSpace_ne_nil {t : Str} {ts : List Str} (h : t ≠ []) :
    joinSpace (t :: ts) ≠ [] := by
  rw [joinSpace_cons]
  simp [h]

theorem mem_joinSpace : ∀ {ts : List Str} {c : Char},
    c ∈ joinSpace ts → (∃ t ∈ ts, c ∈ t) ∨ c = ' ' := by
  intro ts
  induction ts with
  | nil => intro c h; simp [joinSpace] at h
  | cons t us ih =>
    intro c h
    rw [joinSpace_cons] at h
    rcases List.mem_append.mp h with h | h
    · exact Or.inl ⟨t, by simp, h⟩
    · by_cases hu : us = []
      · rw [if_pos hu] at h; simp at h
      · rw [if_neg hu] at h
        rcases List.mem_cons.mp h with rfl | h
        · exact Or.inr rfl
        · rcases ih h with ⟨u, hu1, hu2⟩ | rfl
          · exact Or.inl ⟨u, List.mem_cons_of_mem _ hu1, hu2⟩
          · exact Or.inr rfl

theorem head?_joinSpace {t : Str} (ts : List Str) (h : t ≠ []) :
    (joinSpace (t :: ts)).head? = t.head? := by
  rw [joinSpace_cons]
  cases t with
  | nil => exact absurd rfl h
  | cons a u => rfl

theorem getLast?_joinSpace : ∀ (ts : List Str), (∀ u ∈ ts, u ≠ []) → ts ≠ [] →
    ∃ u ∈ ts, (joinSpace ts).getLast? = u.getLast? := by
  intro ts
  induction ts with
  | nil => intro _ h; exact absurd rfl h
  | cons t us ih =>
    intro hne _
    by_cases hu : us = []
    · subst hu
      exact ⟨t, by simp, by simp [joinSpace]⟩
    · obtain ⟨u, hu1, hu2⟩ := ih (fun v hv => hne v (List.mem_cons_of_mem _ hv)) hu
      refine ⟨u, List.mem_cons_of_mem _ hu1, ?_⟩
      rw [joinSpace_cons, if_neg hu]
      have hjne : joinSpace us ≠ [] := by
        cases us with
        | nil => exact absurd rfl hu
        | cons v vs => exact joinSpace_ne_nil (hne v (by simp))
      rw [List.getLast?_append_of_ne_nil _ (by simp)]
      have : (' ' :: joinSpace us) = [' '] ++ joinSpace us := rfl
      rw [this, List.getLast?_append_of_ne_nil _ hjne]
      exact hu2

theorem takeWhile_append_all {p : Char → Bool} {t r : Str} (h : ∀ c ∈ t, p c = true) :
    (t ++ r).takeWhile p = t ++ r.takeWhile p := by
  induction t with
  | nil => simp
  | cons a u ih =>
    have ha : p a = true := h a (by simp)
    simp only [List.cons_append, List.takeWhile_cons_of_pos ha, List.cons.injEq, true_and]
    exact ih (fun c hc => h c (List.mem_cons_of_mem _ hc))

theorem dropWhile_append_all {p : Char → Bool} {t r : Str} (h : ∀ c ∈ t, p c = true) :
    (t ++ r).dropWhile p = r.dropWhile p := by
  induction t with
  | nil => simp
  | cons a u ih =>
    have ha : p a = true := h a (by simp)
    simp only [List.cons_append, List.dropWhile_cons_of_pos ha]
    exact ih (fun c hc => h c (List.mem_cons_of_mem _ hc))

theorem splitWSGo_joinSpace : ∀ (ts : List Str) (fuel : Nat),
    (∀ t ∈ ts, t ≠ [] ∧ ∀ c ∈ t, pyIsSpace c = false) →
    (joinSpace ts).length ≤ fuel → splitWSGo fuel (joinSpace ts) = ts := by
  intro ts
  induction ts with
  | nil =>
    intro fuel _ _
    cases fuel <;> simp [joinSpace, splitWSGo]
  | cons t us ih =>
    intro fuel hgood hlen
    obtain ⟨hne, hchars⟩ := hgood t (by simp)
    cases t with
    | nil => exact absurd rfl hne
    | cons a u =>
      rw [joinSpace_cons] at hlen ⊢
      have ha : pyIsSpace a = false := hchars a (by simp)
      cases fuel with
      | zero => simp at hlen
      | succ f =>
        show splitWSGo (f + 1) (a :: (u ++ _)) = _
        unfold splitWSGo
        rw [if_neg (by simp [ha])]
        have hu : ∀ c ∈ u, (fun d => ¬ pyIsSpace d : Char → Bool) c = true := by
          intro c hc
          simp [hchars c (List.mem_cons_of_mem _ hc)]
        rw [takeWhile_append_all hu, dropWhile_append_all hu]
        by_cases hus : us = []
        · rw [if_pos hus]
          simp only [List.takeWhile_nil, List.dropWhile_nil, List.append_nil]
          cases f <;> simp [splitWSGo, hus]
        · rw [if_neg hus]
          have htake : (' ' :: joinSpace us).takeWhile (fun d => ¬ pyIsSpace d : Char → Bool)
              = [] := by
            apply List.takeWhile_cons_of_neg
            simp [pyIsSpace]
          have hdrop : (' ' :: joinSpace us).dropWhile (fun d => ¬ pyIsSpace d : Char → Bool)
              = ' ' :: joinSpace us := by
            apply List.dropWhile_cons_of_neg
            simp [pyIsSpace]
          rw [htake, hdrop, List.append_nil]
          have hlen2 : 1 + (joinSpace us).length + 1 ≤ f + 1 := by
            rw [if_neg hus] at hlen
            simp at hlen
            omega
          cases f with
          | zero => omega
          | succ f' =>
            show _ :: splitWSGo (f' + 1) (' ' :: joinSpace us) = _
            unfold splitWSGo
            rw [if_pos (by simp [pyIsSpace])]
            rw [ih f' (fun v hv => hgood v (List.mem_cons_of_mem _ hv)) (by omega)]

theorem splitWS_joinSpace {ts : List Str}
    (h : ∀ t ∈ ts, t ≠ [] ∧ ∀ c ∈ t, pyIsSpace c = false) :
    splitWS (joinSpace ts) = ts :=
  splitWSGo_joinSpace ts (joinSpace ts).length h le_rfl

theorem removeParensGo_eq_self : ∀ (fuel : Nat) {l : Str}, l.length ≤ fuel →
    (∀ c ∈ l, c ≠ '(') → removeParensGo fuel l = l := by
  intro fuel
  induction fuel with
  | zero =>
    intro l hlen _
    cases l with
    | nil => rfl
    | cons a rest => simp at hlen
  | succ f ih =>
    intro l hlen hc
    cases l with
    | nil => rfl
    | cons a rest =>
      unfold removeParensGo
      rw [if_neg (by simp; intro ha; exact absurd ha (hc a (by simp)))]
      simp only [List.cons.injEq, true_and]
      exact ih (by simpa using Nat.le_of_succ_le_succ hlen)
        (fun c hcm => hc c (List.mem_cons_of_mem _ hcm))

theorem removeParens_eq_self {l : Str} (h : ∀ c ∈ l, c ≠ '(') : removeParens l = l :=
  removeParensGo_eq_self l.length le_rfl h

theorem replacePunct_eq_self {l : Str} (h : ∀ c ∈ l, isPunct c = false) :
    replacePunct l = l := by
  unfold replacePunct
  rw [List.map_congr_left (fun c hc => by rw [if_neg (by simp [h c hc])])]
  simp

theorem pyLower_eq_self {l : Str} (h : ∀ c ∈ l, pyToLower c = c) : pyLower l = l := by
  unfold pyLower
  rw [List.map_congr_left h]
  simp

theorem pyStrip_eq_self_of_no_space {l : Str} (h : ∀ c ∈ l, pyIsSpace c = false) :
    pyStrip l = l :=
  pyStrip_eq_self (fun c hc => h c (head?_mem hc)) (fun c hc => h c (getLast?_mem hc))

theorem filterMap_eq_self_of {α : Type} {f : α → Option α} {l : List α}
    (h : ∀ a ∈ l, f a = some a) : l.filterMap f = l := by
  induction l with
  | nil => rfl
  | cons a rest ih =>
    rw [List.filterMap_cons, h a (by simp)]
    rw [ih (fun b hb => h b (List.mem_cons_of_mem _ hb))]

theorem normalize_name_eq_joinSpace (s : Str) (h : s ≠ []) :
    normalize_name s = joinSpace (norm_toks s) := by
  unfold normalize_name norm_toks
  rw [if_neg h]

theorem norm_toks_good (s : Str) : ∀ t ∈ norm_toks s, GoodTok t := by
  intro t ht
  unfold norm_toks at ht
  rcases List.mem_filterMap.mp ht with ⟨w, hw, hfw⟩
  simp only at hfw
  split at hfw
  · next hcond =>
    have ht2 : t = pyStrip w := by
      injection hfw with h2
      exact h2.symm
    obtain ⟨hwne, hwsuf, hwcon⟩ := hcond
    subst ht2
    refine ⟨hwne, ?_, hwsuf, hwcon⟩
    intro c hc
    have hcw : c ∈ w := mem_pyStrip hc
    obtain ⟨_, hwprops⟩ := splitWS_token_props hw
    obtain ⟨hcspace, hcrp⟩ := hwprops c hcw
    -- `c` is a character of the punctuation-replaced string and is not a
    -- space, so it is an untouched non-punctuation character of the
    -- parenthesis-free string, hence a lower-cased character of `s`
    rcases List.mem_map.mp hcrp with ⟨c0, hc0, hc0eq⟩
    by_cases hp : isPunct c0
    · rw [if_pos hp] at hc0eq
      rw [← hc0eq] at hcspace
      simp [pyIsSpace] at hcspace
    · rw [if_neg hp] at hc0eq
      subst hc0eq
      refine ⟨hcspace, by simpa using hp, ?_⟩
      have hc1 : c0 ∈ pyLower s := mem_pyStrip (mem_removeParens hc0)
      rcases List.mem_map.mp hc1 with ⟨d, _, hd⟩
      rw [← hd]
      exact pyToLower_idem d
  · exact absurd hfw (by simp)

theorem pyToLower_space : pyToLower ' ' = ' ' := by decide

theorem normalize_joinSpace_good (ts : List Str) (h : ∀ t ∈ ts, GoodTok t) :
    normalize_name (joinSpace ts) = joinSpace ts := by
  cases ts with
  | nil => simp [joinSpace, normalize_name]
  | cons t us =>
    obtain ⟨htne, htc, _, _⟩ := h t (by simp)
    have hne : joinSpace (t :: us) ≠ [] := joinSpace_ne_nil htne
    unfold normalize_name
    rw [if_neg hne]
    have hlow : pyLower (joinSpace (t :: us)) = joinSpace (t :: us) := by
      apply pyLower_eq_self
      intro c hc
      rcases mem_joinSpace hc with ⟨u, hu1, hu2⟩ | rfl
      · exact ((h u hu1).2.1 c hu2).2.2
      · exact pyToLower_space
    have hstrip : pyStrip (joinSpace (t :: us)) = joinSpace (t :: us) := by
      apply pyStrip_eq_self
      · intro c hc
        rw [head?_joinSpace us htne] at hc
        exact (htc c (head?_mem hc)).1
      · intro c hc
        obtain ⟨u, hu1, hu2⟩ := getLast?_joinSpace (t :: us) (fun v hv => (h v hv).1)
          (by simp)
        rw [hu2] at hc
        exact ((h u hu1).2.1 c (getLast?_mem hc)).1
    have hparens : removeParens (joinSpace (t :: us)) = joinSpace (t :: us) := by
      apply removeParens_eq_self
      intro c hc
      rcases mem_joinSpace hc with ⟨u, hu1, hu2⟩ | rfl
      · intro hceq
        have := ((h u hu1).2.1 c hu2).2.1
        rw [hceq] at this
        simp [isPunct] at this
      · decide
    have hpunct : replacePunct (joinSpace (t :: us)) = joinSpace (t :: us) := by
      apply replacePunct_eq_self
      intro c hc
      rcases mem_joinSpace hc with ⟨u, hu1, hu2⟩ | rfl
      · exact ((h u hu1).2.1 c hu2).2.1
      · decide
    have hsplit : splitWS (joinSpace (t :: us)) = t :: us :=
      splitWS_joinSpace (fun v hv => ⟨(h v hv).1, fun c hc => ((h v hv).2.1 c hc).1⟩)
    simp only [hlow, hstrip, hparens, hpunct, hsplit]
    have hfilter : (t :: us).filterMap (fun w =>
        let wc := pyStrip w
        if wc ≠ [] ∧ wc ∉ company_suffixes ∧ wc ∉ connector_words then some wc
        else none) = t :: us := by
      apply filterMap_eq_self_of
      intro v hv
      obtain ⟨hvne, hvc, hvs, hvcn⟩ := h v hv
      have hvstrip : pyStrip v = v :=
        pyStrip_eq_self_of_no_space (fun c hc => (hvc c hc).1)
      simp only [hvstrip]
      rw [if_pos ⟨hvne, hvs, hvcn⟩]
    rw [hfilter]

/-- Claim C9 (confirmed).  The name normalizer is idempotent: its output
consists of lower-case, whitespace- and punctuation-free tokens outside the
suffix and connector sets joined by single spaces, and each normalization
step is the identity on such output. -/
theorem c9_normalize_name_idempotent (s : Str) :
    normalize_name (normalize_name s) = normalize_name s := by
  by_cases hs : s = []
  · subst hs
    rfl
  · rw [normalize_name_eq_joinSpace s hs]
    exact normalize_joinSpace_good (norm_toks s) (norm_toks_good s)

/-! ## Claim C10: the different-first-words branch is unreachable -/

theorem bucket_add_prop (P : Str × List (Str × Str) → Prop)
    (hP : ∀ n m bs, normalize_name m.2 = n → P (n, bs) → P (n, bs ++ [m]))
    (hP2 : ∀ n m, normalize_name m.2 = n → n ≠ [] → P (n, [m])) :
    ∀ (acc : List (Str × List (Str × Str))) (n : Str) (m : Str × Str),
    (∀ km ∈ acc, P km) → normalize_name m.2 = n → n ≠ [] →
    ∀ km ∈ bucket_add acc n m, P km := by
  intro acc
  induction acc with
  | nil =>
    intro n m _ hm hn km hkm
    simp only [bucket_add, List.mem_singleton] at hkm
    rw [hkm]
    exact hP2 n m hm hn
  | cons b bs ih =>
    intro n m hacc hm hn km hkm
    unfold bucket_add at hkm
    by_cases hb : b.1 = n
    · rw [if_pos hb] at hkm
      rcases List.mem_cons.mp hkm with rfl | hkm
      · have hb2 : P (b.1, b.2) := hacc b (by simp)
        exact hP b.1 m b.2 (by rw [hb]; exact hm) hb2
      · exact hacc km (List.mem_cons_of_mem _ hkm)
    · rw [if_neg hb] at hkm
      rcases List.mem_cons.mp hkm with rfl | hkm
      · exact hacc km (by simp)
      · exact ih n m (fun v hv => hacc v (List.mem_cons_of_mem _ hv)) hm hn km hkm

/-- Every bucket of `normalized_groups` has a nonempty key, and every member
re-normalizes exactly to the bucket key. -/
theorem normalized_groups_prop (dict : List (Str × Str)) :
    ∀ km ∈ normalized_groups dict, km.1 ≠ [] ∧ ∀ m ∈ km.2, normalize_name m.2 = km.1 := by
  unfold normalized_groups
  suffices h : ∀ (rows : List (Str × Str)) (acc : List (Str × List (Str × Str))),
      (∀ km ∈ acc, km.1 ≠ [] ∧ ∀ m ∈ km.2, normalize_name m.2 = km.1) →
      ∀ km ∈ rows.foldl (fun acc cn =>
        let n := normalize_name cn.2
        if n = [] then acc else bucket_add acc n cn) acc,
      km.1 ≠ [] ∧ ∀ m ∈ km.2, normalize_name m.2 = km.1 by
    exact fun km hkm => h dict [] (by simp) km hkm
  intro rows
  induction rows with
  | nil => intro acc hacc km hkm; exact hacc km hkm
  | cons cn rest ih =>
    intro acc hacc km hkm
    rw [List.foldl_cons] at hkm
    by_cases hn : normalize_name cn.2 = []
    · rw [if_pos hn] at hkm
      exact ih acc hacc km hkm
    · rw [if_neg hn] at hkm
      refine ih _ ?_ km hkm
      refine bucket_add_prop _ ?_ ?_ acc (normalize_name cn.2) cn hacc rfl hn
      · rintro n m bs hm ⟨h1, h2⟩
        refine ⟨h1, fun v hv => ?_⟩
        rcases List.mem_append.mp hv with hv | hv
        · exact h2 v hv
        · simp at hv
          rw [hv]
          exact hm
      · intro n m hm hne
        refine ⟨hne, fun v hv => ?_⟩
        simp at hv
        rw [hv]
        exact hm

theorem first_words_subset (w : Str) (k : Str) (ws : List Str)
    (hk : splitWS k = w :: ws) :
    ∀ (ms : List (Str × Str)), (∀ m ∈ ms, normalize_name m.2 = k) →
    ∀ (acc : Finset Str), acc ⊆ {w} →
    ms.foldl (fun fw m =>
      let onorm := normalize_name m.2
      if onorm ≠ [] then
        match splitWS onorm with
        | [] => fw
        | v :: _ => insert v fw
      else fw) acc ⊆ {w} := by
  intro ms
  induction ms with
  | nil => intro _ acc hacc; exact hacc
  | cons m rest ih =>
    intro hm acc hacc
    rw [List.foldl_cons]
    refine ih (fun v hv => hm v (List.mem_cons_of_mem _ hv)) _ ?_
    have hmk : normalize_name m.2 = k := hm m (by simp)
    have hkne : k ≠ [] := by
      intro hknil
      rw [hknil] at hk
      simp [splitWS, splitWSGo] at hk
    simp only [hmk, hk]
    rw [if_pos hkne]
    intro x hx
    rcases Finset.mem_insert.mp hx with rfl | hx
    · simp
    · exact hacc hx

theorem first_words_card_le (k : Str) (ms : List (Str × Str))
    (h2 : 2 ≤ (splitWS k).length) (hm : ∀ m ∈ ms, normalize_name m.2 = k) :
    (first_words ms).card ≤ 1 := by
  rcases hk : splitWS k with _ | ⟨w, ws⟩
  · rw [hk] at h2; simp at h2
  · have hsub : first_words ms ⊆ {w} :=
      first_words_subset w k ws hk ms hm ∅ (by simp)
    calc (first_words ms).card ≤ ({w} : Finset Str).card := Finset.card_le_card hsub
    _ = 1 := Finset.card_singleton w

theorem stage1_group_skips (st : ConsAcc) (k : Str) (ms : List (Str × Str))
    (hkey : k ≠ [] ∧ ∀ m ∈ ms, normalize_name m.2 = k)
    (hst : ∀ e ∈ st.skipped, NotDiffFW e) :
    ∀ e ∈ (stage1_group st k ms).skipped, NotDiffFW e := by
  unfold stage1_group
  by_cases h1 : ms.length ≤ 1
  · rw [if_pos h1]; exact hst
  · rw [if_neg h1]
    by_cases h2 : (splitWS k).length < 2
    · rw [if_pos h2]
      intro e he
      rcases List.mem_append.mp he with he | he
      · exact hst e he
      · simp at he
        rw [he]
        intro fw
        simp [NotDiffFW]
    · rw [if_neg h2]
      have hcard : (first_words ms).card ≤ 1 :=
        first_words_card_le k ms (by omega) hkey.2
      rw [if_neg (by omega)]
      exact hst

theorem stage1_skips (dict : List (Str × Str)) (st : ConsAcc)
    (hst : ∀ e ∈ st.skipped, NotDiffFW e) :
    ∀ e ∈ (stage1 dict st).skipped, NotDiffFW e := by
  unfold stage1
  suffices h : ∀ (bs : List (Str × List (Str × Str))) (st : ConsAcc),
      (∀ km ∈ bs, km.1 ≠ [] ∧ ∀ m ∈ km.2, normalize_name m.2 = km.1) →
      (∀ e ∈ st.skipped, NotDiffFW e) →
      ∀ e ∈ (bs.foldl (fun st km => stage1_group st km.1 km.2) st).skipped, NotDiffFW e by
    exact h _ st (normalized_groups_prop dict) hst
  intro bs
  induction bs with
  | nil => intro st _ hst e he; exact hst e he
  | cons km rest ih =>
    intro st hb hst e he
    rw [List.foldl_cons] at he
    exact ih (stage1_group st km.1 km.2) (fun v hv => hb v (List.mem_cons_of_mem _ hv))
      (stage1_group_skips st km.1 km.2 (hb km (by simp)) hst) e he

theorem innerScan_skips (t1 : Finset Str) (n1 : Str) :
    ∀ (rest : List TokEntry) (proc : Finset Str),
    ∀ e ∈ (innerScan t1 n1 rest proc).2.1, NotDiffFW e := by
  intro rest
  induction rest with
  | nil => intro proc e he; simp [innerScan] at he
  | cons a tail ih =>
    intro proc e he
    unfold innerScan at he
    by_cases hp : a.cid ∈ proc
    · rw [if_pos hp] at he; exact ih proc e he
    · rw [if_neg hp] at he
      by_cases h9 : mkRat 9 10 ≤ jaccard_similarity t1 a.tokens
      · rw [if_pos h9] at he
        exact ih _ e he
      · rw [if_neg h9] at he
        by_cases h7 : mkRat 7 10 ≤ jaccard_similarity t1 a.tokens
        · rw [if_pos h7] at he
          rcases List.mem_cons.mp he with rfl | he
          · intro fw; simp [NotDiffFW]
          · exact ih proc e he
        · rw [if_neg h7] at he
          exact ih proc e he

theorem outerScan_skips : ∀ (td : List TokEntry) (proc : Finset Str),
    ∀ e ∈ (outerScan td proc).2.1, NotDiffFW e := by
  intro td
  induction td with
  | nil => intro proc e he; simp [outerScan] at he
  | cons a tail ih =>
    intro proc e he
    unfold outerScan at he
    by_cases hp : a.cid ∈ proc
    · rw [if_pos hp] at he; exact ih proc e he
    · rw [if_neg hp] at he
      simp only at he
      rcases List.mem_append.mp he with he | he
      · exact innerScan_skips a.tokens a.name tail proc e he
      · exact ih _ e he

theorem stage2_skips (dict : List (Str × Str)) (st : ConsAcc)
    (hst : ∀ e ∈ st.skipped, NotDiffFW e) :
    ∀ e ∈ (stage2 dict st).skipped, NotDiffFW e := by
  unfold stage2
  have houter := outerScan_skips (token_data dict st.already) ∅
  -- the group-formation fold never touches the skipped list
  suffices h : ∀ (sgs : List (TokEntry × List TokEntry)) (st0 : ConsAcc),
      (∀ e ∈ st0.skipped, NotDiffFW e) →
      ∀ e ∈ (sgs.foldl (fun st hg =>
        let grp := hg.1 :: hg.2
        let names := grp.map TokEntry.name
        let pc := pick_canonical_name names
        let canonical_id := (grp.getD pc.2.toNat TokEntry.dflt).cid
        let duplicate_ids := (grp.filter (fun e => e.cid ≠ canonical_id)).map TokEntry.cid
        { st with
          groups := st.groups ++ [⟨canonical_id, duplicate_ids, method_token, .jaccard_high⟩],
          already := (st.already ∪ {canonical_id}) ∪ duplicate_ids.toFinset }) st0).skipped,
      NotDiffFW e by
    intro e he
    refine h _ _ ?_ e he
    intro v hv
    rcases List.mem_append.mp hv with hv | hv
    · exact hst v hv
    · exact houter v hv
  intro sgs
  induction sgs with
  | nil => intro st0 h0 e he; exact h0 e he
  | cons hg tail ih =>
    intro st0 h0 e he
    rw [List.foldl_cons] at he
    refine ih _ ?_ e he
    intro v hv
    exact h0 v hv

theorem stage3_skips (dict : List (Str × Str)) :
    ∀ (rows : List (Str × Str)) (st : ConsAcc),
    (∀ e ∈ st.skipped, NotDiffFW e) →
    ∀ e ∈ (stage3 dict rows st).skipped, NotDiffFW e := by
  intro rows
  induction rows with
  | nil => intro st hst e he; exact hst e he
  | cons cn rest ih =>
    intro st hst e he
    unfold stage3 at he
    by_cases h1 : cn.1 ∈ st.already
    · rw [if_pos h1] at he; exact ih st hst e he
    · rw [if_neg h1] at he
      by_cases h2 : pyLower (extract_first_entity cn.2) = pyLower cn.2
      · rw [if_pos h2] at he; exact ih st hst e he
      · rw [if_neg h2] at he
        by_cases h3 : normalize_name (extract_first_entity cn.2) = []
        · rw [if_pos h3] at he; exact ih st hst e he
        · rw [if_neg h3] at he
          by_cases h4 : (splitWS (normalize_name (extract_first_entity cn.2))).length < 2
          · rw [if_pos h4] at he
            refine ih _ ?_ e he
            intro v hv
            rcases List.mem_append.mp hv with hv | hv
            · exact hst v hv
            · simp at hv
              rw [hv]
              intro fw
              simp [NotDiffFW]
          · rw [if_neg h4] at he
            rcases hf : dict.find? (fun oth =>
                ¬ oth.1 = cn.1 ∧ oth.1 ∉ st.already ∧
                normalize_name oth.2 = normalize_name (extract_first_entity cn.2)) with
              _ | other
            · rw [hf] at he; exact ih st hst e he
            · rw [hf] at he
              refine ih _ ?_ e he
              intro v hv
              exact hst v hv

/-- Claim C10 (confirmed).  The normalized stage's skip branch for
"variants have different first words" is unreachable: bucket members share
the bucket's normalized form by construction, so the first-word safety
check always passes and no skip record of that shape is ever produced by
the safe consolidation pass (on any input). -/
theorem c10_diff_first_words_unreachable (dict : List (Str × Str)) :
    ∀ e ∈ (consolidation_pass dict).skipped, ∀ fw : Finset Str,
      e.2.2 ≠ SkipReason.diff_first_words fw := by
  intro e he
  unfold consolidation_pass at he
  exact stage3_skips dict dict _
    (stage2_skips dict _ (stage1_skips dict ConsAcc.init (by simp [ConsAcc.init]))) e he

/-- Witness for C10: the "summit" single-word skip entry of a concrete run
is not a different-first-words record. -/
theorem c10_diff_first_words_unreachable_witness :
    ((("summit").data : Str), method_normalized,
        SkipReason.single_word ("summit").data) ∈
      (consolidation_pass [((("c1").data : Str), ("Summit Inc").data),
        (("c2").data, ("Summit LLC").data)]).skipped ∧
    (((("summit").data : Str), method_normalized,
        SkipReason.single_word ("summit").data) : Str × String × SkipReason).2.2 ≠
      SkipReason.diff_first_words ∅ :=
  ⟨by decide,
   c10_diff_first_words_unreachable
     [((("c1").data : Str), ("Summit Inc").data), (("c2").data, ("Summit LLC").data)]
     _ (by decide) ∅⟩

/-! ## Claim C4: normalized-group safety checks -/

theorem foldl_opt_mem {A : Type} (step : Option A → A → Option A)
    (hstep : ∀ acc e, step acc e = acc ∨ step acc e = some e) :
    ∀ (l : List A) (acc : Option A) (b : A),
    l.foldl step acc = some b → acc = some b ∨ b ∈ l := by
  intro l
  induction l with
  | nil => intro acc b h; exact Or.inl h
  | cons e rest ih =>
    intro acc b h
    rw [List.foldl_cons] at h
    rcases ih (step acc e) b h with h2 | h2
    · rcases hstep acc e with h3 | h3
      · rw [h3] at h2; exact Or.inl h2
      · rw [h3] at h2
        injection h2 with h4
        exact Or.inr (by rw [← h4]; simp)
    · exact Or.inr (List.mem_cons_of_mem _ h2)

theorem foldl_opt_ne_none {A : Type} (step : Option A → A → Option A)
    (h2 : ∀ b e, step (some b) e ≠ none) :
    ∀ (l : List A) (acc : Option A), acc ≠ none → l.foldl step acc ≠ none := by
  intro l
  induction l with
  | nil => intro acc hacc; exact hacc
  | cons e rest ih =>
    intro acc hacc
    rw [List.foldl_cons]
    rcases Option.ne_none_iff_exists.mp hacc with ⟨b, hb⟩
    refine ih _ ?_
    rw [← hb]
    exact h2 b e

theorem pick_step_cases (acc : Option ((Nat × Nat × Nat) × Nat × Str))
    (e : (Nat × Nat × Nat) × Nat × Str) :
    pick_step acc e = acc ∨ pick_step acc e = some e := by
  cases acc with
  | none => exact Or.inr rfl
  | some b =>
    by_cases hlt : scoreIdxLt (e.1, e.2.1) (b.1, b.2.1)
    · exact Or.inr (by simp [pick_step, hlt])
    · exact Or.inl (by simp [pick_step, hlt])

theorem pick_step_some_ne_none (b : (Nat × Nat × Nat) × Nat × Str)
    (e : (Nat × Nat × Nat) × Nat × Str) : pick_step (some b) e ≠ none := by
  by_cases hlt : scoreIdxLt (e.1, e.2.1) (b.1, b.2.1) <;> simp [pick_step, hlt]

theorem pick_canonical_name_spec (names : List Str) (h : names ≠ []) :
    ∃ i : Nat, i < names.length ∧
      pick_canonical_name names = (names.getD i [], (i : Int)) := by
  unfold pick_canonical_name
  rcases hfold : (names.enum.map (fun p => (name_score p.2, p.1, p.2))).foldl
      pick_step none with _ | b
  · exfalso
    rcases hL : names.enum.map (fun p => (name_score p.2, p.1, p.2)) with _ | ⟨e0, L⟩
    · have henum : names.enum = [] := by
        rcases he : names.enum with _ | _
        · rfl
        · rw [he] at hL; simp at hL
      rcases names with _ | _
      · exact h rfl
      · simp [List.enum] at henum
    · rw [hL, List.foldl_cons] at hfold
      exact foldl_opt_ne_none pick_step pick_step_some_ne_none L (pick_step none e0)
        (by simp [pick_step]) hfold
  · have hb : b ∈ names.enum.map (fun p => (name_score p.2, p.1, p.2)) := by
      rcases foldl_opt_mem pick_step pick_step_cases _ _ _ hfold with h2 | h2
      · exact absurd h2.symm (by simp)
      · exact h2
    rcases List.mem_map.mp hb with ⟨p, hp, hpb⟩
    have hg : names[p.1]? = some p.2 := List.mem_enum_iff_getElem?.mp (by
      rcases p with ⟨i, a⟩; exact hp)
    rcases List.getElem?_eq_some.mp hg with ⟨hlt, hget⟩
    refine ⟨p.1, hlt, ?_⟩
    have hgd : names.getD p.1 [] = p.2 := by
      rw [List.getD_eq_getElem?_getD, hg]
      rfl
    rw [hfold, ← hpb]
    simp [hgd, hg]

theorem stage1_group_groups (st : ConsAcc) (k : Str) (ms : List (Str × Str)) :
    (stage1_group st k ms).groups = st.groups ++ (stage1_group_result k ms).toList := by
  unfold stage1_group stage1_group_result
  by_cases h1 : ms.length ≤ 1
  · rw [if_pos h1, if_pos h1]; simp
  · rw [if_neg h1, if_neg h1]
    by_cases h2 : (splitWS k).length < 2
    · rw [if_pos h2, if_pos h2]; simp
    · rw [if_neg h2, if_neg h2]
      by_cases h3 : 1 < (first_words ms).card
      · rw [if_pos h3, if_pos h3]; simp
      · rw [if_neg h3, if_neg h3]; simp

theorem stage1_group_skipped (st : ConsAcc) (k : Str) (ms : List (Str × Str)) :
    (stage1_group st k ms).skipped = st.skipped ++ (stage1_skip_result k ms).toList := by
  unfold stage1_group stage1_skip_result
  by_cases h1 : ms.length ≤ 1
  · rw [if_pos h1, if_pos h1]; simp
  · rw [if_neg h1, if_neg h1]
    by_cases h2 : (splitWS k).length < 2
    · rw [if_pos h2, if_pos h2]; simp
    · rw [if_neg h2, if_neg h2]
      by_cases h3 : 1 < (first_words ms).card
      · rw [if_pos h3, if_pos h3]; simp
      · rw [if_neg h3, if_neg h3]; simp

theorem stage1_fold_groups : ∀ (bs : List (Str × List (Str × Str))) (st : ConsAcc),
    (bs.foldl (fun st km => stage1_group st km.1 km.2) st).groups =
      st.groups ++ bs.filterMap (fun km => stage1_group_result km.1 km.2) := by
  intro bs
  induction bs with
  | nil => intro st; simp
  | cons km rest ih =>
    intro st
    rw [List.foldl_cons, ih, stage1_group_groups, List.filterMap_cons]
    cases stage1_group_result km.1 km.2 <;> simp

theorem stage1_fold_skipped : ∀ (bs : List (Str × List (Str × Str))) (st : ConsAcc),
    (bs.foldl (fun st km => stage1_group st km.1 km.2) st).skipped =
      st.skipped ++ bs.filterMap (fun km => stage1_skip_result km.1 km.2) := by
  intro bs
  induction bs with
  | nil => intro st; simp
  | cons km rest ih =>
    intro st
    rw [List.foldl_cons, ih, stage1_group_skipped, List.filterMap_cons]
    cases stage1_skip_result km.1 km.2 <;> simp

theorem stage1_group_result_mem {k : Str} {ms : List (Str × Str)} {g : CGroup}
    (h : stage1_group_result k ms = some g) :
    g.canonical ∈ ms.map Prod.fst ∧
    g.dups = (ms.filter (fun m => m.1 ≠ g.canonical)).map Prod.fst ∧
    g.reason = GroupReason.normalized_eq k ∧ g.method = method_normalized ∧
    1 < ms.length := by
  unfold stage1_group_result at h
  by_cases h1 : ms.length ≤ 1
  · rw [if_pos h1] at h; simp at h
  · rw [if_neg h1] at h
    by_cases h2 : (splitWS k).length < 2
    · rw [if_pos h2] at h; simp at h
    · rw [if_neg h2] at h
      by_cases h3 : 1 < (first_words ms).card
      · rw [if_pos h3] at h; simp at h
      · rw [if_neg h3] at h
        simp only [Option.some.injEq] at h
        have hne : ms.map Prod.snd ≠ [] := by
          intro hnil
          have : ms = [] := by simpa using hnil
          rw [this] at h1
          simp at h1
        obtain ⟨i, hi, hpc⟩ := pick_canonical_name_spec (ms.map Prod.snd) hne
        rw [List.length_map] at hi
        have hcanon : (ms.getD (pick_canonical_name (ms.map Prod.snd)).2.toNat ([], [])).1 ∈
            ms.map Prod.fst := by
          rw [hpc]
          simp only [Int.toNat_natCast]
          have : ms.getD i ([], []) = ms.get ⟨i, hi⟩ := by
            rw [List.getD_eq_getElem?_getD, List.getElem?_eq_getElem hi]
            rfl
          rw [this]
          exact List.mem_map.mpr ⟨ms.get ⟨i, hi⟩, List.get_mem ms _ _, rfl⟩
        rw [← h]
        exact ⟨hcanon, rfl, rfl, rfl, by omega⟩

theorem mem_flatMap_of_mem {A B : Type} {bs : List A} {f : A → List B} {a : A}
    (ha : a ∈ bs) : List.Sublist (f a) (bs.flatMap f) := by
  induction bs with
  | nil => simp at ha
  | cons b rest ih =>
    rcases List.mem_cons.mp ha with rfl | ha
    · rw [List.flatMap_cons]
      exact List.sublist_append_left _ _
    · rw [List.flatMap_cons]
      exact (ih ha).trans (List.sublist_append_right _ _)

theorem nodup_flatMap_pairwise {A B : Type} {bs : List A} {f : A → List B}
    (h : (bs.flatMap f).Nodup) : bs.Pairwise (fun a b => ∀ x ∈ f a, x ∉ f b) := by
  induction bs with
  | nil => exact List.Pairwise.nil
  | cons a rest ih =>
    rw [List.flatMap_cons, List.nodup_append] at h
    refine List.Pairwise.cons ?_ (ih h.2.1)
    intro b hb x hx hxb
    exact h.2.2 hx (List.mem_flatMap.mpr ⟨b, hb, hxb⟩)

theorem bucket_add_flat_perm (acc : List (Str × List (Str × Str))) (n : Str)
    (m : Str × Str) :
    ((bucket_add acc n m).flatMap (fun km => km.2)).Perm
      ((acc.flatMap (fun km => km.2)) ++ [m]) := by
  induction acc with
  | nil => simp [bucket_add]
  | cons b bs ih =>
    unfold bucket_add
    by_cases hb : b.1 = n
    · rw [if_pos hb]
      simp only [List.flatMap_cons]
      rw [List.append_assoc, List.append_assoc]
      exact List.Perm.append_left b.2 List.perm_append_comm
    · rw [if_neg hb]
      simp only [List.flatMap_cons]
      rw [List.append_assoc]
      exact List.Perm.append_left b.2 ih

theorem normalized_groups_flat_perm (dict : List (Str × Str)) :
    ((normalized_groups dict).flatMap (fun km => km.2)).Perm
      (dict.filter (fun cn => ¬ normalize_name cn.2 = [])) := by
  unfold normalized_groups
  suffices h : ∀ (rows : List (Str × Str)) (acc : List (Str × List (Str × Str))),
      ((rows.foldl (fun acc cn =>
        let n := normalize_name cn.2
        if n = [] then acc else bucket_add acc n cn) acc).flatMap (fun km => km.2)).Perm
      ((acc.flatMap (fun km => km.2)) ++ rows.filter (fun cn => ¬ normalize_name cn.2 = [])) by
    have := h dict []
    simpa using this
  intro rows
  induction rows with
  | nil => intro acc; simp
  | cons cn rest ih =>
    intro acc
    rw [List.foldl_cons, List.filter_cons]
    by_cases hn : normalize_name cn.2 = []
    · rw [if_pos hn]
      have : (decide (¬ normalize_name cn.2 = [])) = false := by simp [hn]
      rw [this]
      exact ih acc
    · rw [if_neg hn]
      have hd : (decide (¬ normalize_name cn.2 = [])) = true := by simp [hn]
      rw [hd, if_pos rfl]
      have h1 := bucket_add_flat_perm acc (normalize_name cn.2) cn
      have h2 := List.Perm.append_right
        (rest.filter (fun cn => decide (¬ normalize_name cn.2 = []))) h1
      refine (ih (bucket_add acc (normalize_name cn.2) cn)).trans (h2.trans ?_)
      rw [List.append_assoc]
      exact List.Perm.refl _

theorem dict_insert_keys {α : Type} (d : List (Str × α)) (k : Str) (v : α) :
    (dict_insert d k v).map Prod.fst =
      if d.any (fun p => p.1 = k) then d.map Prod.fst else d.map Prod.fst ++ [k] := by
  unfold dict_insert
  by_cases h : d.any (fun p => p.1 = k)
  · rw [if_pos h, if_pos h, List.map_map]
    refine List.map_congr_left ?_
    intro p _
    by_cases hp : p.1 = k
    · simp [hp]
    · simp [hp]
  · rw [if_neg h, if_neg h]
    simp

theorem build_dict_keys_nodup {α : Type} (rows : List (Str × α)) :
    ((build_dict rows).map Prod.fst).Nodup := by
  unfold build_dict
  suffices h : ∀ (rs : List (Str × α)) (acc : List (Str × α)),
      (acc.map Prod.fst).Nodup →
      ((rs.foldl (fun d r => dict_insert d r.1 r.2) acc).map Prod.fst).Nodup by
    exact h rows [] (by simp)
  intro rs
  induction rs with
  | nil => intro acc hacc; exact hacc
  | cons r rest ih =>
    intro acc hacc
    rw [List.foldl_cons]
    refine ih _ ?_
    rw [dict_insert_keys]
    by_cases h : acc.any (fun p => p.1 = r.1)
    · rw [if_pos h]; exact hacc
    · rw [if_neg h]
      have hk : r.1 ∉ acc.map Prod.fst := by
        intro hmem
        rcases List.mem_map.mp hmem with ⟨p, hp, hpk⟩
        exact h (List.any_eq_true.mpr ⟨p, hp, by simp [hpk]⟩)
      simp [List.nodup_append, hacc, hk]

/-- Bucket member-id lists of `normalized_groups (build_dict companies)` are
pairwise disjoint and individually duplicate-free. -/
theorem normalized_groups_cid_facts (companies : List (Str × Str)) :
    (normalized_groups (build_dict companies)).Pairwise
      (fun a b => ∀ x ∈ a.2.map Prod.fst, x ∉ b.2.map Prod.fst) ∧
    ∀ km ∈ normalized_groups (build_dict companies), (km.2.map Prod.fst).Nodup := by
  have hperm := normalized_groups_flat_perm (build_dict companies)
  have hflat : (((normalized_groups (build_dict companies)).flatMap
      (fun km => km.2)).map Prod.fst).Nodup := by
    refine (List.Perm.nodup_iff (List.Perm.map Prod.fst hperm)).mpr ?_
    have hsub : List.Sublist
        ((build_dict companies).filter (fun cn => ¬ normalize_name cn.2 = []))
        (build_dict companies) := List.filter_sublist _
    exact ((hsub.map Prod.fst).nodup (build_dict_keys_nodup companies))
  constructor
  · have h2 : ((normalized_groups (build_dict companies)).flatMap
        (fun km => km.2.map Prod.fst)).Nodup := by
      rw [← List.map_flatMap]
      exact hflat
    exact nodup_flatMap_pairwise h2
  · intro km hkm
    have hsub := mem_flatMap_of_mem (f := fun km => km.2) hkm
    exact ((hsub.map Prod.fst).nodup hflat)

theorem stage1_groups_closed (companies : List (Str × Str)) :
    (stage1 (build_dict companies) ConsAcc.init).groups =
      (normalized_groups (build_dict companies)).filterMap
        (fun km => stage1_group_result km.1 km.2) := by
  unfold stage1
  rw [stage1_fold_groups]
  simp [ConsAcc.init]

theorem stage1_skipped_closed (companies : List (Str × Str)) :
    (stage1 (build_dict companies) ConsAcc.init).skipped =
      (normalized_groups (build_dict companies)).filterMap
        (fun km => stage1_skip_result km.1 km.2) := by
  unfold stage1
  rw [stage1_fold_skipped]
  simp [ConsAcc.init]

theorem stage1_not_merged (companies : List (Str × Str))
    {km : Str × List (Str × Str)}
    (hkm : km ∈ normalized_groups (build_dict companies))
    (hnone : stage1_group_result km.1 km.2 = none) :
    ∀ m ∈ km.2, ∀ g ∈ (stage1 (build_dict companies) ConsAcc.init).groups,
      m.1 ∉ g.memberCids := by
  obtain ⟨hpw, _⟩ := normalized_groups_cid_facts companies
  intro m hm g hg hxin
  rw [stage1_groups_closed] at hg
  rcases List.mem_filterMap.mp hg with ⟨km', hkm', hres⟩
  obtain ⟨hcanon, hdups, _, _, _⟩ := stage1_group_result_mem hres
  have h1 : m.1 ∈ km'.2.map Prod.fst := by
    rcases List.mem_cons.mp hxin with hx | hx
    · rw [hx]; exact hcanon
    · rw [hdups] at hx
      rcases List.mem_map.mp hx with ⟨q, hq, hqx⟩
      exact List.mem_map.mpr ⟨q, List.mem_of_mem_filter hq, hqx⟩
  have h2 : m.1 ∈ km.2.map Prod.fst := List.mem_map.mpr ⟨m, hm, rfl⟩
  by_cases heq : km = km'
  · rw [← heq] at hres
    rw [hnone] at hres
    exact Option.noConfusion hres
  · have hsym : Symmetric (fun (a b : Str × List (Str × Str)) =>
        ∀ x ∈ a.2.map Prod.fst, x ∉ b.2.map Prod.fst) := by
      intro a b hab x hxb hxa
      exact hab x hxa hxb
    exact (hpw.forall hsym) hkm hkm' heq m.1 h2 h1

/-- Claim C4 (confirmed).  A normalized-name group with more than one member
is consolidated only when the shared normalized form has at least two tokens
and every member's first normalized token agrees; a violating group is
recorded in the skipped list with a reason and contributes no member to any
group formed by this stage. -/
theorem c4_normalized_group_safety (companies : List (Str × Str)) :
    ∀ km ∈ normalized_groups (build_dict companies), 1 < km.2.length →
    (((splitWS km.1).length < 2 →
      (km.1, method_normalized, SkipReason.single_word km.1) ∈
        (stage1 (build_dict companies) ConsAcc.init).skipped ∧
      ∀ m ∈ km.2, ∀ g ∈ (stage1 (build_dict companies) ConsAcc.init).groups,
        m.1 ∉ g.memberCids) ∧
    (2 ≤ (splitWS km.1).length → 1 < (first_words km.2).card →
      (km.1, method_normalized, SkipReason.diff_first_words (first_words km.2)) ∈
        (stage1 (build_dict companies) ConsAcc.init).skipped ∧
      ∀ m ∈ km.2, ∀ g ∈ (stage1 (build_dict companies) ConsAcc.init).groups,
        m.1 ∉ g.memberCids) ∧
    (2 ≤ (splitWS km.1).length → (first_words km.2).card ≤ 1 →
      ∃ g ∈ (stage1 (build_dict companies) ConsAcc.init).groups,
        g.reason = GroupReason.normalized_eq km.1 ∧
        g.canonical ∈ km.2.map Prod.fst ∧
        g.dups = (km.2.filter (fun m => m.1 ≠ g.canonical)).map Prod.fst)) := by
  intro km hkm hlen
  have hlen' : ¬ km.2.length ≤ 1 := by omega
  refine ⟨?_, ?_, ?_⟩
  · intro hsplit
    have hres : stage1_skip_result km.1 km.2 =
        some (km.1, method_normalized, SkipReason.single_word km.1) := by
      unfold stage1_skip_result
      rw [if_neg hlen', if_pos hsplit]
    have hgres : stage1_group_result km.1 km.2 = none := by
      unfold stage1_group_result
      rw [if_neg hlen', if_pos hsplit]
    refine ⟨?_, stage1_not_merged companies hkm hgres⟩
    rw [stage1_skipped_closed]
    exact List.mem_filterMap.mpr ⟨km, hkm, hres⟩
  · intro hsplit hcard
    have hsplit' : ¬ (splitWS km.1).length < 2 := by omega
    have hres : stage1_skip_result km.1 km.2 =
        some (km.1, method_normalized, SkipReason.diff_first_words (first_words km.2)) := by
      unfold stage1_skip_result
      rw [if_neg hlen', if_neg hsplit', if_pos hcard]
    have hgres : stage1_group_result km.1 km.2 = none := by
      unfold stage1_group_result
      rw [if_neg hlen', if_neg hsplit', if_pos hcard]
    refine ⟨?_, stage1_not_merged companies hkm hgres⟩
    rw [stage1_skipped_closed]
    exact List.mem_filterMap.mpr ⟨km, hkm, hres⟩
  · intro hsplit hcard
    have hsplit' : ¬ (splitWS km.1).length < 2 := by omega
    have hcard' : ¬ 1 < (first_words km.2).card := by omega
    rcases hgres : stage1_group_result km.1 km.2 with _ | g
    · exfalso
      unfold stage1_group_result at hgres
      rw [if_neg hlen', if_neg hsplit', if_neg hcard'] at hgres
      simp at hgres
    · obtain ⟨hcanon, hdups, hreason, _, _⟩ := stage1_group_result_mem hgres
      refine ⟨g, ?_, hreason, hcanon, hdups⟩
      rw [stage1_groups_closed]
      exact List.mem_filterMap.mpr ⟨km, hkm, hgres⟩

/-- Witness for C4: the classic "summit" single-word group is skipped with
the single-word reason. -/
theorem c4_normalized_group_safety_witness :
    ((("summit").data : Str), method_normalized,
        SkipReason.single_word ("summit").data) ∈
      (stage1 (build_dict [((("c1").data : Str), ("Summit Inc").data),
        (("c2").data, ("Summit LLC").data)]) ConsAcc.init).skipped :=
  ((c4_normalized_group_safety
      [((("c1").data : Str), ("Summit Inc").data), (("c2").data, ("Summit LLC").data)]
      ((("summit").data : Str),
        [(("c1").data, ("Summit Inc").data), (("c2").data, ("Summit LLC").data)])
      (by decide) (by decide)).1 (by decide)).1

/-! ## Claim C5: token-overlap stage of the safe consolidation -/

theorem innerJoins_insert (t1 : Finset Str) {e : TokEntry} {rest : List TokEntry}
    (proc : Finset Str) (he : e.cid ∉ rest.map TokEntry.cid) :
    innerJoins t1 (insert e.cid proc) rest = innerJoins t1 proc rest := by
  unfold innerJoins
  refine List.filter_congr ?_
  intro a ha
  have hne : ¬ a.cid = e.cid := fun hc => he (hc ▸ List.mem_map.mpr ⟨a, ha, rfl⟩)
  rw [decide_eq_decide]
  simp [Finset.mem_insert, hne]

theorem innerSkips_insert (t1 : Finset Str) (n1 : Str) {e : TokEntry}
    {rest : List TokEntry} (proc : Finset Str) (he : e.cid ∉ rest.map TokEntry.cid) :
    innerSkips t1 n1 (insert e.cid proc) rest = innerSkips t1 n1 proc rest := by
  unfold innerSkips
  congr 1
  refine List.filter_congr ?_
  intro a ha
  have hne : ¬ a.cid = e.cid := fun hc => he (hc ▸ List.mem_map.mpr ⟨a, ha, rfl⟩)
  rw [decide_eq_decide]
  simp [Finset.mem_insert, hne]

theorem innerScan_eq (t1 : Finset Str) (n1 : Str) :
    ∀ (rest : List TokEntry) (proc : Finset Str), (rest.map TokEntry.cid).Nodup →
    innerScan t1 n1 rest proc =
      (innerJoins t1 proc rest, innerSkips t1 n1 proc rest,
       proc ∪ ((innerJoins t1 proc rest).map TokEntry.cid).toFinset) := by
  intro rest
  induction rest with
  | nil => intro proc _; simp [innerScan, innerJoins, innerSkips]
  | cons e rest' ih =>
    intro proc hnd
    rw [List.map_cons, List.nodup_cons] at hnd
    obtain ⟨hecid, hnd'⟩ := hnd
    unfold innerScan
    by_cases hp : e.cid ∈ proc
    · rw [if_pos hp, ih proc hnd']
      have hj : innerJoins t1 proc (e :: rest') = innerJoins t1 proc rest' := by
        unfold innerJoins
        rw [List.filter_cons, if_neg (by simp [hp])]
      have hs : innerSkips t1 n1 proc (e :: rest') = innerSkips t1 n1 proc rest' := by
        unfold innerSkips
        rw [List.filter_cons, if_neg (by simp [hp])]
      rw [hj, hs]
    · rw [if_neg hp]
      by_cases h9 : mkRat 9 10 ≤ jaccard_similarity t1 e.tokens
      · rw [if_pos h9, ih (insert e.cid proc) hnd']
        have hj : innerJoins t1 proc (e :: rest') = e :: innerJoins t1 proc rest' := by
          unfold innerJoins
          rw [List.filter_cons, if_pos (by simp [hp, h9])]
        have hs : innerSkips t1 n1 proc (e :: rest') = innerSkips t1 n1 proc rest' := by
          unfold innerSkips
          rw [List.filter_cons, if_neg (by simp [hp, h9, not_lt.mpr h9])]
        rw [innerJoins_insert t1 proc hecid, innerSkips_insert t1 n1 proc hecid, hj, hs]
        refine Prod.ext rfl (Prod.ext rfl ?_)
        simp only [List.map_cons]
        ext x
        simp only [Finset.mem_union, Finset.mem_insert, List.mem_toFinset, List.mem_cons]
        tauto
      · rw [if_neg h9]
        have hj : innerJoins t1 proc (e :: rest') = innerJoins t1 proc rest' := by
          unfold innerJoins
          rw [List.filter_cons, if_neg (by simp [h9])]
        by_cases h7 : mkRat 7 10 ≤ jaccard_similarity t1 e.tokens
        · rw [if_pos h7, ih proc hnd']
          have hs : innerSkips t1 n1 proc (e :: rest') =
              (n1 ++ arrow_sep ++ e.name, method_token,
                SkipReason.jaccard_below (jaccard_similarity t1 e.tokens)) ::
              innerSkips t1 n1 proc rest' := by
            unfold innerSkips
            rw [List.filter_cons, if_pos (by simp [hp, h7, lt_of_not_le h9])]
            rfl
          rw [hj, hs]
        · rw [if_neg h7, ih proc hnd']
          have hs : innerSkips t1 n1 proc (e :: rest') = innerSkips t1 n1 proc rest' := by
            unfold innerSkips
            rw [List.filter_cons, if_neg (by simp [h7])]
          rw [hj, hs]

theorem innerJoins_sub (t1 : Finset Str) (proc : Finset Str) (rest : List TokEntry) :
    ∀ j ∈ innerJoins t1 proc rest,
      j ∈ rest ∧ j.cid ∉ proc ∧ mkRat 9 10 ≤ jaccard_similarity t1 j.tokens := by
  intro j hj
  unfold innerJoins at hj
  have hm := List.mem_of_mem_filter hj
  have hp := List.of_mem_filter hj
  simp at hp
  exact ⟨hm, hp.1, hp.2⟩

/-- The member ids of every similar group produced by the outer scan:
contained in the scanned list, untouched by the incoming processed set,
duplicate-free, joined only at Jaccard ≥ 0.90, and pairwise disjoint
between groups. -/
theorem outerScan_spec : ∀ (td : List TokEntry) (proc : Finset Str),
    (td.map TokEntry.cid).Nodup →
    (∀ hg ∈ (outerScan td proc).1,
       (∀ x ∈ hg.1 :: hg.2, x ∈ td) ∧
       (∀ x ∈ hg.1 :: hg.2, x.cid ∉ proc) ∧
       ((hg.1 :: hg.2).map TokEntry.cid).Nodup ∧
       (∀ j ∈ hg.2, mkRat 9 10 ≤ jaccard_similarity hg.1.tokens j.tokens)) ∧
    (outerScan td proc).1.Pairwise
      (fun a b => ∀ x ∈ (a.1 :: a.2).map TokEntry.cid,
        x ∉ (b.1 :: b.2).map TokEntry.cid) := by
  intro td
  induction td with
  | nil => intro proc _; simp [outerScan]
  | cons e rest ih =>
    intro proc hnd
    rw [List.map_cons, List.nodup_cons] at hnd
    obtain ⟨hecid, hnd'⟩ := hnd
    unfold outerScan
    by_cases hp : e.cid ∈ proc
    · rw [if_pos hp]
      obtain ⟨h1, h2⟩ := ih proc hnd'
      refine ⟨?_, h2⟩
      intro hg hhg
      obtain ⟨ha, hb, hc, hd⟩ := h1 hg hhg
      exact ⟨fun x hx => List.mem_cons_of_mem _ (ha x hx), hb, hc, hd⟩
    · rw [if_neg hp]
      rw [innerScan_eq e.tokens e.name rest proc hnd']
      simp only []
      set js := innerJoins e.tokens proc rest with hjs
      set proc2 := insert e.cid (proc ∪ (js.map TokEntry.cid).toFinset) with hproc2
      obtain ⟨ih1, ih2⟩ := ih proc2 hnd'
      have hsubproc : proc ⊆ proc2 := by
        intro x hx
        rw [hproc2]
        exact Finset.mem_insert_of_mem (Finset.mem_union_left _ hx)
      have hrec1 : ∀ hg ∈ (outerScan rest proc2).1,
          (∀ x ∈ hg.1 :: hg.2, x ∈ e :: rest) ∧
          (∀ x ∈ hg.1 :: hg.2, x.cid ∉ proc) ∧
          ((hg.1 :: hg.2).map TokEntry.cid).Nodup ∧
          (∀ j ∈ hg.2, mkRat 9 10 ≤ jaccard_similarity hg.1.tokens j.tokens) := by
        intro hg hhg
        obtain ⟨ha, hb, hc, hd⟩ := ih1 hg hhg
        exact ⟨fun x hx => List.mem_cons_of_mem _ (ha x hx),
               fun x hx hxp => hb x hx (hsubproc hxp), hc, hd⟩
      by_cases hjne : js ≠ []
      · rw [if_pos hjne]
        constructor
        · intro hg hhg
          rcases List.mem_cons.mp hhg with rfl | hhg
          · -- the new group (e, js)
            refine ⟨?_, ?_, ?_, ?_⟩
            · intro x hx
              rcases List.mem_cons.mp hx with rfl | hx
              · simp
              · exact List.mem_cons_of_mem _ (innerJoins_sub _ _ _ x hx).1
            · intro x hx
              rcases List.mem_cons.mp hx with rfl | hx
              · exact hp
              · exact (innerJoins_sub _ _ _ x hx).2.1
            · rw [List.map_cons, List.nodup_cons]
              have hsub : List.Sublist (js.map TokEntry.cid) (rest.map TokEntry.cid) := by
                rw [hjs]
                unfold innerJoins
                exact (List.filter_sublist rest).map TokEntry.cid
              refine ⟨fun hmem => hecid (hsub.mem hmem), hsub.nodup hnd'⟩
            · intro j hj
              exact (innerJoins_sub _ _ _ j hj).2.2
          · exact hrec1 hg hhg
        · refine List.Pairwise.cons ?_ ih2
          intro hg hhg x hx hxg
          -- x is a member cid of (e, js), hence in proc2; members of hg avoid proc2
          have hxin2 : x ∈ proc2 := by
            rcases List.mem_map.mp hx with ⟨y, hy, hyx⟩
            subst hyx
            rcases List.mem_cons.mp hy with rfl | hy
            · exact Finset.mem_insert_self _ _
            · exact Finset.mem_insert_of_mem (Finset.mem_union_right _
                (List.mem_toFinset.mpr (List.mem_map.mpr ⟨y, hy, rfl⟩)))
          obtain ⟨ha, hb, hc, hd⟩ := ih1 hg hhg
          rcases List.mem_map.mp hxg with ⟨y, hy, hyx⟩
          exact hb y hy (by rw [hyx]; exact hxin2)
      · rw [if_neg hjne]
        refine ⟨fun hg hhg => hrec1 hg hhg, ih2⟩

theorem stage1_members_already (dict : List (Str × Str)) (st : ConsAcc)
    (h : ∀ g ∈ st.groups, ∀ x ∈ g.memberCids, x ∈ st.already) :
    ∀ g ∈ (stage1 dict st).groups, ∀ x ∈ g.memberCids, x ∈ (stage1 dict st).already := by
  unfold stage1
  suffices hstep : ∀ (bs : List (Str × List (Str × Str))) (st : ConsAcc),
      (∀ g ∈ st.groups, ∀ x ∈ g.memberCids, x ∈ st.already) →
      ∀ g ∈ (bs.foldl (fun st km => stage1_group st km.1 km.2) st).groups,
        ∀ x ∈ g.memberCids,
        x ∈ (bs.foldl (fun st km => stage1_group st km.1 km.2) st).already by
    exact hstep _ st h
  intro bs
  induction bs with
  | nil => intro st h g hg x hx; exact h g hg x hx
  | cons km rest ih =>
    intro st h
    rw [List.foldl_cons]
    refine ih _ ?_
    unfold stage1_group
    by_cases h1 : km.2.length ≤ 1
    · rw [if_pos h1]; exact h
    · rw [if_neg h1]
      by_cases h2 : (splitWS km.1).length < 2
      · rw [if_pos h2]; exact h
      · rw [if_neg h2]
        by_cases h3 : 1 < (first_words km.2).card
        · rw [if_pos h3]; exact h
        · rw [if_neg h3]
          intro g hg x hx
          simp only [List.mem_append, List.mem_singleton] at hg
          rcases hg with hg | rfl
          · exact Finset.mem_union_left _ (Finset.mem_union_left _ (h g hg x hx))
          · rcases List.mem_cons.mp hx with rfl | hx
            · exact Finset.mem_union_left _ (Finset.mem_union_right _ (by simp))
            · exact Finset.mem_union_right _ (List.mem_toFinset.mpr hx)

theorem token_data_not_already (dict : List (Str × Str)) (A : Finset Str) :
    ∀ e ∈ token_data dict A, e.cid ∉ A := by
  intro e he
  unfold token_data at he
  rcases List.mem_filterMap.mp he with ⟨cn, _, hf⟩
  by_cases hA : cn.1 ∈ A
  · rw [if_pos hA] at hf; exact absurd hf (by simp)
  · rw [if_neg hA] at hf
    by_cases ht : (splitWS (normalize_name cn.2)).toFinset ≠ ∅ ∧
        2 ≤ (splitWS (normalize_name cn.2)).toFinset.card
    · rw [if_pos ht] at hf
      injection hf with hf
      rw [← hf]
      exact hA
    · rw [if_neg ht] at hf
      exact absurd hf (by simp)

theorem token_data_cids_sublist (dict : List (Str × Str)) (A : Finset Str) :
    List.Sublist ((token_data dict A).map TokEntry.cid) (dict.map Prod.fst) := by
  induction dict with
  | nil => simp [token_data]
  | cons cn rest ih =>
    show List.Sublist (((cn :: rest).filterMap _).map TokEntry.cid) _
    rw [List.filterMap_cons]
    by_cases hA : cn.1 ∈ A
    · rw [if_pos hA]
      exact ih.trans (List.sublist_cons_self _ _)
    · rw [if_neg hA]
      by_cases ht : (splitWS (normalize_name cn.2)).toFinset ≠ ∅ ∧
          2 ≤ (splitWS (normalize_name cn.2)).toFinset.card
      · rw [if_pos ht]
        simp only [List.map_cons]
        exact ih.cons₂ cn.1
      · rw [if_neg ht]
        exact ih.trans (List.sublist_cons_self _ _)

theorem stage2_fold_skipped (sgs : List (TokEntry × List TokEntry)) :
    ∀ st0 : ConsAcc,
    (sgs.foldl (fun st hg =>
      let grp := hg.1 :: hg.2
      let names := grp.map TokEntry.name
      let pc := pick_canonical_name names
      let canonical_id := (grp.getD pc.2.toNat TokEntry.dflt).cid
      let duplicate_ids := (grp.filter (fun e => e.cid ≠ canonical_id)).map TokEntry.cid
      { st with
        groups := st.groups ++ [⟨canonical_id, duplicate_ids, method_token, .jaccard_high⟩],
        already := (st.already ∪ {canonical_id}) ∪ duplicate_ids.toFinset }) st0).skipped =
      st0.skipped := by
  induction sgs with
  | nil => intro st0; rfl
  | cons hg tail ih => intro st0; rw [List.foldl_cons, ih]

theorem stage2_skipped_eq (dict : List (Str × Str)) (st : ConsAcc) :
    (stage2 dict st).skipped =
      st.skipped ++ (outerScan (token_data dict st.already) ∅).2.1 := by
  unfold stage2
  rw [stage2_fold_skipped]

/-- Claim C5 (confirmed).  In the token-overlap stage only companies not
grouped by the normalized stage are compared; an entry joins a similar
group only at Jaccard ≥ 0.90; the inner comparison loop's outputs are
exactly characterised: the joined entries are the unprocessed ones scoring
≥ 0.90 and the skip records are exactly one per unprocessed compared entry
scoring in `[0.70, 0.90)`; and all those skip records land in the stage's
skipped list. -/
theorem c5_token_overlap_safety (companies : List (Str × Str)) :
    (∀ e ∈ token_data (build_dict companies)
        (stage1 (build_dict companies) ConsAcc.init).already,
      e.cid ∉ (stage1 (build_dict companies) ConsAcc.init).already ∧
      ∀ g ∈ (stage1 (build_dict companies) ConsAcc.init).groups, e.cid ∉ g.memberCids) ∧
    (∀ hg ∈ (outerScan (token_data (build_dict companies)
        (stage1 (build_dict companies) ConsAcc.init).already) ∅).1,
      ∀ j ∈ hg.2, mkRat 9 10 ≤ jaccard_similarity hg.1.tokens j.tokens) ∧
    (∀ (t1 : Finset Str) (n1 : Str) (rest : List TokEntry) (proc : Finset Str),
      (rest.map TokEntry.cid).Nodup →
      (innerScan t1 n1 rest proc).1 = innerJoins t1 proc rest ∧
      (innerScan t1 n1 rest proc).2.1 = innerSkips t1 n1 proc rest) ∧
    (∀ s ∈ (outerScan (token_data (build_dict companies)
        (stage1 (build_dict companies) ConsAcc.init).already) ∅).2.1,
      s ∈ (stage2 (build_dict companies)
        (stage1 (build_dict companies) ConsAcc.init)).skipped) := by
  have hnd : ((token_data (build_dict companies)
      (stage1 (build_dict companies) ConsAcc.init).already).map TokEntry.cid).Nodup :=
    (token_data_cids_sublist _ _).nodup (build_dict_keys_nodup companies)
  refine ⟨?_, ?_, ?_, ?_⟩
  · intro e he
    have hna := token_data_not_already _ _ e he
    refine ⟨hna, fun g hg hmem => ?_⟩
    have := stage1_members_already (build_dict companies) ConsAcc.init
      (by simp [ConsAcc.init]) g hg e.cid hmem
    exact hna this
  · intro hg hhg j hj
    exact ((outerScan_spec _ ∅ hnd).1 hg hhg).2.2.2 j hj
  · intro t1 n1 rest proc hrest
    rw [innerScan_eq t1 n1 rest proc hrest]
    exact ⟨rfl, rfl⟩
  · intro s hs
    rw [stage2_skipped_eq]
    exact List.mem_append_right _ hs

/-- Witness for C5: two seven-token names at Jaccard 6/8 = 0.75 are
compared, not merged, and produce a skip record in the stage-2 skipped
list. -/
theorem c5_token_overlap_safety_witness :
    ((("A B C D E F G").data ++ arrow_sep ++ ("A B C D E F H").data : Str), method_token,
        SkipReason.jaccard_below (mkRat 3 4)) ∈
      (stage2 (build_dict [((("c1").data : Str), ("A B C D E F G").data),
          (("c2").data, ("A B C D E F H").data)])
        (stage1 (build_dict [((("c1").data : Str), ("A B C D E F G").data),
          (("c2").data, ("A B C D E F H").data)]) ConsAcc.init)).skipped :=
  (c5_token_overlap_safety
    [((("c1").data : Str), ("A B C D E F G").data),
     (("c2").data, ("A B C D E F H").data)]).2.2.2 _ (by decide)

/-! ## Claim C3: acyclicity of the consolidation map -/

theorem flatMembers_cons (g : CGroup) (gs : List CGroup) :
    flatMembers (g :: gs) = g.memberCids ++ flatMembers gs := by
  unfold flatMembers
  rw [List.flatMap_cons]

theorem flatDups_cons (g : CGroup) (gs : List CGroup) :
    flatDups (g :: gs) = g.dups.map (fun d => (d, g.canonical)) ++ flatDups gs := by
  unfold flatDups
  rw [List.flatMap_cons]

theorem flatMembers_append_one (gs : List CGroup) (g : CGroup) :
    flatMembers (gs ++ [g]) = flatMembers gs ++ g.memberCids := by
  unfold flatMembers
  rw [List.flatMap_append]
  simp

theorem flatMap_filterMap {A B C : Type} (r : A → Option B) (f : B → List C) :
    ∀ bs : List A,
    (bs.filterMap r).flatMap f = bs.flatMap (fun a => ((r a).map f).getD []) := by
  intro bs
  induction bs with
  | nil => rfl
  | cons a rest ih =>
    rw [List.filterMap_cons]
    cases hr : r a with
    | none => simp [hr, List.flatMap_cons, ih]
    | some b => simp [hr, List.flatMap_cons, ih]

theorem nodup_flatMap_of_disjoint {A B : Type} (f g : A → List B) :
    ∀ bs : List A,
    bs.Pairwise (fun a b => ∀ x ∈ f a, x ∉ f b) →
    (∀ a ∈ bs, ∀ x ∈ g a, x ∈ f a) →
    (∀ a ∈ bs, (g a).Nodup) →
    (bs.flatMap g).Nodup := by
  intro bs
  induction bs with
  | nil => intro _ _ _; simp
  | cons a rest ih =>
    intro hpw hsub hnd
    rw [List.flatMap_cons, List.nodup_append]
    rcases List.pairwise_cons.mp hpw with ⟨hhead, htail⟩
    refine ⟨hnd a (List.mem_cons_self a rest),
      ih htail (fun b hb => hsub b (List.mem_cons_of_mem a hb))
        (fun b hb => hnd b (List.mem_cons_of_mem a hb)), ?_⟩
    intro x hx hx2
    rcases List.mem_flatMap.mp hx2 with ⟨b, hb, hxb⟩
    exact hhead b hb x (hsub a (List.mem_cons_self a rest) x hx)
      (hsub b (List.mem_cons_of_mem a hb) x hxb)

/-- Appending one fresh, duplicate-free group preserves the flattened
member-id invariant. -/
theorem minv_add_group (st : ConsAcc) (g : CGroup) (A : Finset Str)
    (h1 : (flatMembers st.groups).Nodup)
    (h2 : ∀ x ∈ flatMembers st.groups, x ∈ st.already)
    (hnd : g.memberCids.Nodup)
    (hnew : ∀ x ∈ g.memberCids, x ∉ st.already)
    (hA : ∀ x ∈ st.already, x ∈ A)
    (hAmem : ∀ x ∈ g.memberCids, x ∈ A) :
    (flatMembers (st.groups ++ [g])).Nodup ∧
    ∀ x ∈ flatMembers (st.groups ++ [g]), x ∈ A := by
  rw [flatMembers_append_one]
  constructor
  · rw [List.nodup_append]
    exact ⟨h1, hnd, fun a ha hag => hnew a hag (h2 a ha)⟩
  · intro x hx
    rcases List.mem_append.mp hx with hx | hx
    · exact hA x (h2 x hx)
    · exact hAmem x hx

/-- Stage 1 never places the same company id into two groups: the
flattened member ids of its groups are duplicate-free. -/
theorem stage1_flatMembers_nodup (companies : List (Str × Str)) :
    (flatMembers (stage1 (build_dict companies) ConsAcc.init).groups).Nodup := by
  obtain ⟨hpw, hndb⟩ := normalized_groups_cid_facts companies
  unfold flatMembers
  rw [stage1_groups_closed, flatMap_filterMap]
  refine nodup_flatMap_of_disjoint (fun km => km.2.map Prod.fst) _ _ hpw ?_ ?_
  · intro km hkm x hx
    have hx' : x ∈ ((stage1_group_result km.1 km.2).map CGroup.memberCids).getD [] := hx
    cases hr : stage1_group_result km.1 km.2 with
    | none => rw [hr] at hx'; simp at hx'
    | some gr =>
      rw [hr] at hx'
      obtain ⟨hcanon, hdups, _, _, _⟩ := stage1_group_result_mem hr
      simp [CGroup.memberCids] at hx'
      rcases hx' with rfl | hx'
      · exact hcanon
      · rw [hdups] at hx'
        rcases List.mem_map.mp hx' with ⟨q, hq, rfl⟩
        exact List.mem_map.mpr ⟨q, List.mem_of_mem_filter hq, rfl⟩
  · intro km hkm
    show (((stage1_group_result km.1 km.2).map CGroup.memberCids).getD []).Nodup
    cases hr : stage1_group_result km.1 km.2 with
    | none => simp
    | some gr =>
      obtain ⟨hcanon, hdups, _, _, _⟩ := stage1_group_result_mem hr
      show (gr.canonical :: gr.dups).Nodup
      refine List.nodup_cons.mpr ⟨?_, ?_⟩
      · rw [hdups]
        intro hmem
        rcases List.mem_map.mp hmem with ⟨q, hq, hcq⟩
        have hne := List.of_mem_filter hq
        simp only [decide_eq_true_eq] at hne
        exact hne hcq
      · rw [hdups]
        exact ((List.filter_sublist km.2).map Prod.fst).nodup (hndb km hkm)

theorem stage2_canonical_mem (hg : TokEntry × List TokEntry) :
    stage2_canonical hg ∈ (hg.1 :: hg.2).map TokEntry.cid := by
  unfold stage2_canonical
  have hne : (hg.1 :: hg.2).map TokEntry.name ≠ [] := by simp
  obtain ⟨i, hi, hpc⟩ := pick_canonical_name_spec ((hg.1 :: hg.2).map TokEntry.name) hne
  rw [List.length_map] at hi
  rw [hpc]
  simp only [Int.toNat_natCast]
  have hget : (hg.1 :: hg.2).getD i TokEntry.dflt = (hg.1 :: hg.2).get ⟨i, hi⟩ := by
    rw [List.getD_eq_getElem?_getD, List.getElem?_eq_getElem hi]
    rfl
  rw [hget]
  exact List.mem_map.mpr ⟨(hg.1 :: hg.2).get ⟨i, hi⟩, List.get_mem _ _ _, rfl⟩

theorem stage2_dups_facts (hg : TokEntry × List TokEntry) :
    (∀ d ∈ stage2_dups hg,
      d ∈ (hg.1 :: hg.2).map TokEntry.cid ∧ d ≠ stage2_canonical hg) ∧
    stage2_canonical hg ∉ stage2_dups hg ∧
    (((hg.1 :: hg.2).map TokEntry.cid).Nodup → (stage2_dups hg).Nodup) := by
  refine ⟨?_, ?_, ?_⟩
  · intro d hd
    unfold stage2_dups at hd
    rcases List.mem_map.mp hd with ⟨e, he, rfl⟩
    have hp := List.of_mem_filter he
    simp only [decide_eq_true_eq] at hp
    exact ⟨List.mem_map.mpr ⟨e, List.mem_of_mem_filter he, rfl⟩, hp⟩
  · intro hmem
    unfold stage2_dups at hmem
    rcases List.mem_map.mp hmem with ⟨e, he, hce⟩
    have hp := List.of_mem_filter he
    simp only [decide_eq_true_eq] at hp
    exact hp hce
  · intro hnd
    unfold stage2_dups
    exact ((List.filter_sublist _).map TokEntry.cid).nodup hnd

theorem stage2_eq (dict : List (Str × Str)) (st : ConsAcc) :
    stage2 dict st =
      (outerScan (token_data dict st.already) ∅).1.foldl stage2_step
        { st with
          skipped := st.skipped ++ (outerScan (token_data dict st.already) ∅).2.1 } := rfl

theorem stage2_fold_minv : ∀ (sgs : List (TokEntry × List TokEntry)) (st : ConsAcc),
    (flatMembers st.groups).Nodup →
    (∀ x ∈ flatMembers st.groups, x ∈ st.already) →
    (∀ hg ∈ sgs, ((hg.1 :: hg.2).map TokEntry.cid).Nodup) →
    (∀ hg ∈ sgs, ∀ c ∈ (hg.1 :: hg.2).map TokEntry.cid, c ∉ st.already) →
    sgs.Pairwise (fun a b => ∀ x ∈ (a.1 :: a.2).map TokEntry.cid,
      x ∉ (b.1 :: b.2).map TokEntry.cid) →
    (flatMembers (sgs.foldl stage2_step st).groups).Nodup ∧
    ∀ x ∈ flatMembers (sgs.foldl stage2_step st).groups,
      x ∈ (sgs.foldl stage2_step st).already := by
  intro sgs
  induction sgs with
  | nil => intro st h1 h2 _ _ _; exact ⟨h1, h2⟩
  | cons hg rest ih =>
    intro st h1 h2 hnd hfresh hpw
    rw [List.foldl_cons]
    rcases List.pairwise_cons.mp hpw with ⟨hhead, htail⟩
    have hcm := stage2_canonical_mem hg
    have hds := stage2_dups_facts hg
    have hgnd : ((hg.1 :: hg.2).map TokEntry.cid).Nodup := hnd hg (List.mem_cons_self _ _)
    have hmemnd : (stage2_canonical hg :: stage2_dups hg).Nodup :=
      List.nodup_cons.mpr ⟨hds.2.1, hds.2.2 hgnd⟩
    have hmemcids : ∀ x ∈ stage2_canonical hg :: stage2_dups hg,
        x ∈ (hg.1 :: hg.2).map TokEntry.cid := by
      intro x hx
      rcases List.mem_cons.mp hx with rfl | hx
      · exact hcm
      · exact (hds.1 x hx).1
    have hmemnew : ∀ x ∈ stage2_canonical hg :: stage2_dups hg, x ∉ st.already :=
      fun x hx => hfresh hg (List.mem_cons_self _ _) x (hmemcids x hx)
    have hstep := minv_add_group st
      ⟨stage2_canonical hg, stage2_dups hg, method_token, .jaccard_high⟩
      ((st.already ∪ {stage2_canonical hg}) ∪ (stage2_dups hg).toFinset)
      h1 h2 hmemnd hmemnew
      (fun x hx => Finset.mem_union_left _ (Finset.mem_union_left _ hx))
      (by
        intro x hx
        rcases List.mem_cons.mp hx with rfl | hx
        · exact Finset.mem_union_left _ (Finset.mem_union_right _ (by simp))
        · exact Finset.mem_union_right _ (List.mem_toFinset.mpr hx))
    refine ih (stage2_step st hg) hstep.1 hstep.2
      (fun hg' hhg' => hnd hg' (List.mem_cons_of_mem _ hhg')) ?_ htail
    intro hg' hhg' c' hc'
    have hnold : c' ∉ st.already := hfresh hg' (List.mem_cons_of_mem _ hhg') c' hc'
    have hnnew : c' ∉ (hg.1 :: hg.2).map TokEntry.cid :=
      fun hmem => hhead hg' hhg' c' hmem hc'
    intro hmem
    have hmem' : c' ∈ (st.already ∪ {stage2_canonical hg}) ∪ (stage2_dups hg).toFinset :=
      hmem
    rcases Finset.mem_union.mp hmem' with hmem' | hmem'
    · rcases Finset.mem_union.mp hmem' with hmem' | hmem'
      · exact hnold hmem'
      · rw [Finset.mem_singleton] at hmem'
        exact hnnew (hmem' ▸ hcm)
    · exact hnnew ((hds.1 c' (List.mem_toFinset.mp hmem')).1)

/-- Stage 2 preserves the flattened member-id invariant: it only groups
companies not already consolidated, each new group is internally
duplicate-free, and distinct stage-2 groups never share a company. -/
theorem stage2_minv (companies : List (Str × Str)) (st : ConsAcc)
    (h1 : (flatMembers st.groups).Nodup)
    (h2 : ∀ x ∈ flatMembers st.groups, x ∈ st.already) :
    (flatMembers (stage2 (build_dict companies) st).groups).Nodup ∧
    ∀ x ∈ flatMembers (stage2 (build_dict companies) st).groups,
      x ∈ (stage2 (build_dict companies) st).already := by
  rw [stage2_eq]
  have htd : ((token_data (build_dict companies) st.already).map TokEntry.cid).Nodup :=
    (token_data_cids_sublist _ _).nodup (build_dict_keys_nodup companies)
  obtain ⟨hspec, hpw⟩ := outerScan_spec (token_data (build_dict companies) st.already) ∅ htd
  refine stage2_fold_minv _ _ h1 h2 ?_ ?_ hpw
  · intro hg hhg
    exact (hspec hg hhg).2.2.1
  · intro hg hhg c hc
    rcases List.mem_map.mp hc with ⟨e, he, rfl⟩
    exact token_data_not_already _ _ e ((hspec hg hhg).1 e he)

/-- One stage-3 merge of a fresh pair preserves the flattened member-id
invariant. -/
theorem minv_add_pair (st : ConsAcc) (a b : Str) (meth : String) (r : GroupReason)
    (h1 : (flatMembers st.groups).Nodup)
    (h2 : ∀ x ∈ flatMembers st.groups, x ∈ st.already)
    (hab : a ≠ b) (ha : a ∉ st.already) (hb : b ∉ st.already) :
    (flatMembers (st.groups ++ [⟨a, [b], meth, r⟩])).Nodup ∧
    ∀ x ∈ flatMembers (st.groups ++ [⟨a, [b], meth, r⟩]),
      x ∈ (st.already ∪ {a}) ∪ ([b] : List Str).toFinset := by
  refine minv_add_group st ⟨a, [b], meth, r⟩
    ((st.already ∪ {a}) ∪ ([b] : List Str).toFinset) h1 h2 ?_ ?_ ?_ ?_
  · simp [CGroup.memberCids, hab]
  · intro x hx
    simp [CGroup.memberCids] at hx
    rcases hx with rfl | rfl
    · exact ha
    · exact hb
  · intro x hx
    exact Finset.mem_union_left _ (Finset.mem_union_left _ hx)
  · intro x hx
    simp [CGroup.memberCids] at hx
    rcases hx with rfl | rfl
    · exact Finset.mem_union_left _ (Finset.mem_union_right _ (by simp))
    · exact Finset.mem_union_right _ (by simp)

/-- Stage 3 preserves the flattened member-id invariant: it only merges a
pair of distinct companies neither of which is already grouped. -/
theorem stage3_minv (dict : List (Str × Str)) : ∀ (l : List (Str × Str)) (st : ConsAcc),
    (flatMembers st.groups).Nodup →
    (∀ x ∈ flatMembers st.groups, x ∈ st.already) →
    (flatMembers (stage3 dict l st).groups).Nodup ∧
    ∀ x ∈ flatMembers (stage3 dict l st).groups, x ∈ (stage3 dict l st).already := by
  intro l
  induction l with
  | nil => intro st h1 h2; exact ⟨h1, h2⟩
  | cons cn rest ih =>
    intro st h1 h2
    unfold stage3
    by_cases g1 : cn.1 ∈ st.already
    · rw [if_pos g1]; exact ih st h1 h2
    · rw [if_neg g1]
      by_cases g2 : pyLower (extract_first_entity cn.2) = pyLower cn.2
      · rw [if_pos g2]; exact ih st h1 h2
      · rw [if_neg g2]
        by_cases g3 : normalize_name (extract_first_entity cn.2) = []
        · rw [if_pos g3]; exact ih st h1 h2
        · rw [if_neg g3]
          by_cases g4 : (splitWS (normalize_name (extract_first_entity cn.2))).length < 2
          · rw [if_pos g4]
            exact ih _ h1 h2
          · rw [if_neg g4]
            rcases hf : dict.find? (fun oth =>
                ¬ oth.1 = cn.1 ∧ oth.1 ∉ st.already ∧
                normalize_name oth.2 = normalize_name (extract_first_entity cn.2)) with
              _ | oth2
            · rw [hf]; exact ih st h1 h2
            · rw [hf]
              simp only []
              have hpred := List.find?_some hf
              simp only [decide_eq_true_eq] at hpred
              obtain ⟨hne, hnal, _⟩ := hpred
              have hcn_ne : cn.1 ≠ oth2.1 := fun h => hne h.symm
              by_cases hpc : (pick_canonical_name [cn.2, oth2.2]).2 = 0
              · rw [if_pos hpc]
                exact ih _
                  (minv_add_pair st cn.1 oth2.1 method_first_entity
                    (.first_entity_eq (extract_first_entity cn.2)) h1 h2 hcn_ne g1 hnal).1
                  (minv_add_pair st cn.1 oth2.1 method_first_entity
                    (.first_entity_eq (extract_first_entity cn.2)) h1 h2 hcn_ne g1 hnal).2
              · rw [if_neg hpc]
                exact ih _
                  (minv_add_pair st oth2.1 cn.1 method_first_entity
                    (.first_entity_eq (extract_first_entity cn.2)) h1 h2
                    (fun h => hcn_ne h.symm) hnal g1).1
                  (minv_add_pair st oth2.1 cn.1 method_first_entity
                    (.first_entity_eq (extract_first_entity cn.2)) h1 h2
                    (fun h => hcn_ne h.symm) hnal g1).2

/-- Across the whole safe consolidation pass, no company id ever belongs
to two groups, and no group repeats a member. -/
theorem consolidation_pass_members_nodup (companies : List (Str × Str)) :
    (flatMembers (consolidation_pass (build_dict companies)).groups).Nodup := by
  unfold consolidation_pass
  have h1nd := stage1_flatMembers_nodup companies
  have h1al : ∀ x ∈ flatMembers (stage1 (build_dict companies) ConsAcc.init).groups,
      x ∈ (stage1 (build_dict companies) ConsAcc.init).already := by
    intro x hx
    unfold flatMembers at hx
    rcases List.mem_flatMap.mp hx with ⟨g, hg, hxg⟩
    exact stage1_members_already (build_dict companies) ConsAcc.init
      (by intro g hg; simp [ConsAcc.init] at hg) g hg x hxg
  have h2 := stage2_minv companies _ h1nd h1al
  exact (stage3_minv (build_dict companies) (build_dict companies) _ h2.1 h2.2).1

theorem dict_insert_fresh {α : Type} {m : List (Str × α)} {k : Str} (v : α)
    (h : k ∉ m.map Prod.fst) : dict_insert m k v = m ++ [(k, v)] := by
  unfold dict_insert
  have hna : m.any (fun p => p.1 = k) = false := by
    rw [List.any_eq_false]
    intro p hp
    simp only [decide_eq_true_eq]
    intro hpk
    exact h (List.mem_map.mpr ⟨p, hp, hpk⟩)
  rw [hna]
  simp

theorem foldl_dict_insert_fresh {α : Type} (c : α) : ∀ (ds : List Str) (m : List (Str × α)),
    ds.Nodup → (∀ d ∈ ds, d ∉ m.map Prod.fst) →
    ds.foldl (fun m d => dict_insert m d c) m = m ++ ds.map (fun d => (d, c)) := by
  intro ds
  induction ds with
  | nil => intro m _ _; simp
  | cons d rest ih =>
    intro m hnd hfresh
    rw [List.foldl_cons, dict_insert_fresh c (hfresh d (List.mem_cons_self d rest))]
    rw [ih (m ++ [(d, c)]) (List.nodup_cons.mp hnd).2 ?_]
    · simp
    · intro d' hd'
      rw [List.map_append, List.mem_append]
      rintro (hin | hin)
      · exact hfresh d' (List.mem_cons_of_mem _ hd') hin
      · simp at hin
        exact (List.nodup_cons.mp hnd).1 (hin ▸ hd')

theorem consolidation_map_foldl : ∀ (gs : List CGroup) (m : List (Str × Str)),
    (flatMembers gs).Nodup →
    (∀ x ∈ flatMembers gs, x ∉ m.map Prod.fst) →
    gs.foldl (fun m g => g.dups.foldl (fun m d => dict_insert m d g.canonical) m) m =
      m ++ flatDups gs := by
  intro gs
  induction gs with
  | nil => intro m _ _; simp [flatDups]
  | cons g rest ih =>
    intro m hnd hfresh
    rw [List.foldl_cons]
    rw [flatMembers_cons, List.nodup_append] at hnd
    obtain ⟨hgnd, hrestnd, hdisj⟩ := hnd
    have hfresh' : ∀ x ∈ CGroup.memberCids g, x ∉ m.map Prod.fst := by
      intro x hx
      exact hfresh x (by rw [flatMembers_cons]; exact List.mem_append_left _ hx)
    rw [foldl_dict_insert_fresh g.canonical g.dups m (List.nodup_cons.mp hgnd).2
      (fun d hd => hfresh' d (List.mem_cons_of_mem _ hd))]
    rw [ih (m ++ g.dups.map (fun d => (d, g.canonical))) hrestnd ?_]
    · rw [flatDups_cons, List.append_assoc]
    · intro x hx
      rw [List.map_append, List.mem_append]
      rintro (hin | hin)
      · exact hfresh x (by rw [flatMembers_cons]; exact List.mem_append_right _ hx) hin
      · have hxd : x ∈ g.dups := by
          rcases List.mem_map.mp hin with ⟨p, hp, hpx⟩
          rcases List.mem_map.mp hp with ⟨d, hd, hdp⟩
          rw [← hpx, ← hdp]
          exact hd
        exact hdisj (List.mem_cons_of_mem _ hxd) hx

/-- With globally duplicate-free member ids, the Python dict build of the
consolidation map is a plain append of all `(duplicate, canonical)`
pairs. -/
theorem consolidation_map_eq_flatDups (gs : List CGroup)
    (h : (flatMembers gs).Nodup) :
    consolidation_map gs = flatDups gs := by
  unfold consolidation_map
  rw [consolidation_map_foldl gs [] h (by simp)]
  simp

theorem mem_flatDups {gs : List CGroup} {p : Str × Str} (hp : p ∈ flatDups gs) :
    ∃ g ∈ gs, p.1 ∈ g.dups ∧ p.2 = g.canonical := by
  unfold flatDups at hp
  rcases List.mem_flatMap.mp hp with ⟨g, hg, hpg⟩
  rcases List.mem_map.mp hpg with ⟨d, hd, hdp⟩
  exact ⟨g, hg, by rw [← hdp]; exact hd, by rw [← hdp]⟩

theorem flatDups_keys_sublist : ∀ gs : List CGroup,
    List.Sublist ((flatDups gs).map Prod.fst) (flatMembers gs) := by
  intro gs
  induction gs with
  | nil => simp [flatDups, flatMembers]
  | cons g rest ih =>
    rw [flatDups_cons, flatMembers_cons, List.map_append]
    have hmap : (g.dups.map (fun d => (d, g.canonical))).map Prod.fst = g.dups := by
      rw [List.map_map]
      have hid : ∀ d ∈ g.dups, (Prod.fst ∘ fun d => (d, g.canonical)) d = id d :=
        fun d _ => rfl
      rw [List.map_congr_left hid, List.map_id]
    rw [hmap]
    exact List.Sublist.append (List.sublist_cons_self _ _) ih

theorem flatDups_value_not_key : ∀ gs : List CGroup, (flatMembers gs).Nodup →
    ∀ p ∈ flatDups gs, p.2 ∉ (flatDups gs).map Prod.fst := by
  intro gs
  induction gs with
  | nil => intro _ p hp; simp [flatDups] at hp
  | cons g rest ih =>
    intro h p hp hkey
    rw [flatMembers_cons, List.nodup_append] at h
    obtain ⟨hgnd, hrest, hdisj⟩ := h
    rw [flatDups_cons] at hp hkey
    rw [List.map_append] at hkey
    have hmap : (g.dups.map (fun d => (d, g.canonical))).map Prod.fst = g.dups := by
      rw [List.map_map]
      have hid : ∀ d ∈ g.dups, (Prod.fst ∘ fun d => (d, g.canonical)) d = id d :=
        fun d _ => rfl
      rw [List.map_congr_left hid, List.map_id]
    rw [hmap] at hkey
    rcases List.mem_append.mp hp with hp | hp
    · rcases List.mem_map.mp hp with ⟨d, hd, hdp⟩
      have hp2 : p.2 = g.canonical := by rw [← hdp]
      rcases List.mem_append.mp hkey with hk | hk
      · rw [hp2] at hk
        exact (List.nodup_cons.mp hgnd).1 hk
      · rw [hp2] at hk
        have hkmem : g.canonical ∈ flatMembers rest :=
          (flatDups_keys_sublist rest).subset hk
        exact hdisj (List.mem_cons_self _ _) hkmem
    · rcases List.mem_append.mp hkey with hk | hk
      · rcases mem_flatDups hp with ⟨g', hg', _, hp2⟩
        have hpm : p.2 ∈ flatMembers rest := by
          unfold flatMembers
          refine List.mem_flatMap.mpr ⟨g', hg', ?_⟩
          rw [hp2]
          exact List.mem_cons_self _ _
        exact hdisj (List.mem_cons_of_mem _ hk) hpm
      · exact ih hrest p hp hk

theorem dlookup_eq_none_of_not_key {α : Type} {m : List (Str × α)} {k : Str}
    (h : k ∉ m.map Prod.fst) : dlookup m k = none := by
  unfold dlookup
  have hfind : m.find? (fun p => p.1 = k) = none := by
    rw [List.find?_eq_none]
    intro p hp
    simp only [decide_eq_true_eq]
    intro hpk
    exact h (List.mem_map.mpr ⟨p, hp, hpk⟩)
  rw [hfind]
  rfl

/-- Claim C3 (confirmed).  The consolidation map built by
`consolidate_company_duplicates_safe` maps each duplicate company id to
exactly one canonical id (its keys are duplicate-free), and no canonical
value ever occurs as a key: following the map one step from any key lands
on a company id that is itself unmapped, so no chain ever continues past
one step and no company maps to itself transitively. -/
theorem c3_consolidation_map_acyclic (companies : List (Str × Str)) :
    ((consolidation_map (consolidation_pass (build_dict companies)).groups).map
        Prod.fst).Nodup ∧
    ∀ p ∈ consolidation_map (consolidation_pass (build_dict companies)).groups,
      p.2 ∉ (consolidation_map (consolidation_pass (build_dict companies)).groups).map
          Prod.fst ∧
      dlookup (consolidation_map (consolidation_pass (build_dict companies)).groups)
          p.2 = none := by
  have hnd := consolidation_pass_members_nodup companies
  rw [consolidation_map_eq_flatDups _ hnd]
  refine ⟨(flatDups_keys_sublist _).nodup hnd, ?_⟩
  intro p hp
  have hnk := flatDups_value_not_key _ hnd p hp
  exact ⟨hnk, dlookup_eq_none_of_not_key hnk⟩

/-- Witness for C3: on a concrete two-company table the map sends `c2` to
`c1`, and `c1` is not a key of the map. -/
theorem c3_consolidation_map_acyclic_witness :
    ((("c2").data, ("c1").data) ∈
      consolidation_map (consolidation_pass (build_dict
        [(("c1").data, ("Acme Software Inc").data),
         (("c2").data, ("Acme Software LLC").data)])).groups) ∧
    (("c1").data ∉ (consolidation_map (consolidation_pass (build_dict
        [(("c1").data, ("Acme Software Inc").data),
         (("c2").data, ("Acme Software LLC").data)])).groups).map Prod.fst) :=
  ⟨by decide, ((c3_consolidation_map_acyclic
      [(("c1").data, ("Acme Software Inc").data),
       (("c2").data, ("Acme Software LLC").data)]).2
      ((("c2").data, ("c1").data)) (by decide)).1⟩

/-! ## Claim C7: the first-entity extraction heuristic -/

theorem pyIsSpace_pyToLower (c : Char) : pyIsSpace (pyToLower c) = pyIsSpace c := by
  unfold pyToLower
  by_cases h : 65 ≤ c.toNat ∧ c.toNat ≤ 90
  · rw [if_pos h]
    have h32 : (Char.ofNat (c.toNat + 32)).toNat = c.toNat + 32 :=
      char_toNat_ofNat (by omega)
    have hfalse : ∀ (d : Char), 33 ≤ d.toNat → pyIsSpace d = false := by
      intro d hd
      unfold pyIsSpace
      rw [decide_eq_false_iff_not]
      intro hsp
      rcases hsp with rfl | rfl | rfl | rfl | rfl | rfl <;> exact absurd hd (by decide)
    have h1 : 33 ≤ (Char.ofNat (c.toNat + 32)).toNat := by rw [h32]; omega
    have h2 : 33 ≤ c.toNat := by omega
    rw [hfalse _ h1, hfalse _ h2]
  · rw [if_neg h]

theorem prefix_iff_leadsWith : ∀ (p l : Str), leadsWith p l = true ↔ p <+: l := by
  intro p
  induction p with
  | nil => intro l; simp [leadsWith, List.nil_prefix]
  | cons a p ih =>
    intro l
    cases l with
    | nil => simp [leadsWith, List.prefix_nil]
    | cons c cs =>
      unfold leadsWith
      rw [List.cons_prefix_cons]
      by_cases hac : a = c
      · rw [if_pos hac, ih cs]
        simp [hac]
      · rw [if_neg hac]
        simp [hac]

theorem suffix_alts_facts : ∀ alt ∈ suffix_alts,
    alt ≠ [] ∧ alt.getLast?.map pyIsSpace = some false := by decide

/-- Stripping a clean token followed by a whitespace run returns the
token. -/
theorem pyStrip_append_ws {u w : Str} (hu : u ≠ [])
    (hh : ∀ c, u.head? = some c → pyIsSpace c = false)
    (hl : ∀ c, u.getLast? = some c → pyIsSpace c = false)
    (hw : ∀ c ∈ w, pyIsSpace c = true) :
    pyStrip (u ++ w) = u := by
  unfold pyStrip
  have hdw1 : (u ++ w).dropWhile pyIsSpace = u ++ w := by
    refine dropWhile_eq_self_of_head ?_
    intro c hc
    cases hu2 : u with
    | nil => exact absurd hu2 hu
    | cons a as =>
      rw [hu2, List.cons_append, List.head?_cons] at hc
      injection hc with hac
      refine hh c ?_
      rw [hu2, List.head?_cons, hac]
  have h2 : (w.reverse ++ u.reverse).dropWhile pyIsSpace = u.reverse.dropWhile pyIsSpace :=
    dropWhile_append_all (fun c hc => hw c (List.mem_reverse.mp hc))
  have h3 : u.reverse.dropWhile pyIsSpace = u.reverse :=
    dropWhile_eq_self_of_head (fun c hc => hl c (by rw [← List.head?_reverse]; exact hc))
  rw [hdw1, List.reverse_append, h2, h3, List.reverse_reverse]

theorem matchAltAt_rel (l alt : Str) :
    (matchAltAt l alt = none ∧
      (if leadsWith alt l && commaAfterWs (l.drop alt.length)
       then some alt.length else (none : Option Nat)) = none) ∨
    (∃ len, matchAltAt l alt = some len ∧
      (if leadsWith alt l && commaAfterWs (l.drop alt.length)
       then some alt.length else (none : Option Nat)) = some alt.length ∧
      alt <+: l ∧
      len = alt.length + ((l.drop alt.length).takeWhile pyIsSpace).length + 1) := by
  unfold matchAltAt
  by_cases hlw : leadsWith alt l = true
  · rw [if_pos hlw]
    simp only []
    have hdrop : (l.drop alt.length).drop ((l.drop alt.length).takeWhile pyIsSpace).length
        = (l.drop alt.length).dropWhile pyIsSpace := by
      calc (l.drop alt.length).drop ((l.drop alt.length).takeWhile pyIsSpace).length
          = ((l.drop alt.length).takeWhile pyIsSpace ++
              (l.drop alt.length).dropWhile pyIsSpace).drop
              ((l.drop alt.length).takeWhile pyIsSpace).length := by
            rw [List.takeWhile_append_dropWhile]
        _ = (l.drop alt.length).dropWhile pyIsSpace := List.drop_left _ _
    rw [hdrop]
    unfold commaAfterWs
    by_cases hcomma : headIsComma ((l.drop alt.length).dropWhile pyIsSpace) = true
    · rw [if_pos hcomma]
      right
      have hcond : (leadsWith alt l &&
          headIsComma ((l.drop alt.length).dropWhile pyIsSpace)) = true := by
        simp [hlw, hcomma]
      rw [if_pos hcond]
      exact ⟨_, rfl, rfl, (prefix_iff_leadsWith alt l).mp hlw, rfl⟩
    · rw [if_neg hcomma]
      left
      have hcomma' : headIsComma ((l.drop alt.length).dropWhile pyIsSpace) = false :=
        Bool.not_eq_true _ |>.mp hcomma
      have hcond : ¬ ((leadsWith alt l &&
          headIsComma ((l.drop alt.length).dropWhile pyIsSpace)) = true) := by
        rw [hcomma', Bool.and_false]
        exact Bool.false_ne_true
      rw [if_neg hcond]
      exact ⟨rfl, rfl⟩
  · rw [if_neg hlw]
    left
    have hlw' : leadsWith alt l = false := Bool.not_eq_true _ |>.mp hlw
    have hcond : ¬ ((leadsWith alt l && commaAfterWs (l.drop alt.length)) = true) := by
      rw [hlw', Bool.false_and]
      exact Bool.false_ne_true
    rw [if_neg hcond]
    exact ⟨rfl, rfl⟩

theorem findSome?_rel {A B C : Type} (R : B → C → Prop) :
    ∀ (l : List A) (f : A → Option B) (g : A → Option C),
    (∀ a ∈ l, (f a = none ∧ g a = none) ∨ ∃ b c, f a = some b ∧ g a = some c ∧ R b c) →
    ((l.findSome? f = none ∧ l.findSome? g = none) ∨
     ∃ b c, l.findSome? f = some b ∧ l.findSome? g = some c ∧ R b c) := by
  intro l
  induction l with
  | nil => intro f g _; left; exact ⟨rfl, rfl⟩
  | cons a rest ih =>
    intro f g h
    rcases h a (List.mem_cons_self _ _) with ⟨hfa, hga⟩ | ⟨b, c, hfa, hga, hR⟩
    · have e1 : (a :: rest).findSome? f = rest.findSome? f := by
        rw [List.findSome?_cons, hfa]
      have e2 : (a :: rest).findSome? g = rest.findSome? g := by
        rw [List.findSome?_cons, hga]
      rw [e1, e2]
      exact ih f g (fun x hx => h x (List.mem_cons_of_mem _ hx))
    · right
      have e1 : (a :: rest).findSome? f = some b := by rw [List.findSome?_cons, hfa]
      have e2 : (a :: rest).findSome? g = some c := by rw [List.findSome?_cons, hga]
      exact ⟨b, c, e1, e2, hR⟩

theorem findSome?_ext {A B : Type} (f g : A → Option B) :
    ∀ l : List A, (∀ a ∈ l, f a = g a) → l.findSome? f = l.findSome? g := by
  intro l
  induction l with
  | nil => intro _; rfl
  | cons a rest ih =>
    intro h
    rw [List.findSome?_cons, List.findSome?_cons, h a (List.mem_cons_self _ _),
      ih (fun x hx => h x (List.mem_cons_of_mem _ hx))]

theorem findSome?_map_out {A B C : Type} (g : A → Option B) (h : B → C) :
    ∀ l : List A, l.findSome? (fun a => (g a).map h) = (l.findSome? g).map h := by
  intro l
  induction l with
  | nil => rfl
  | cons a rest ih =>
    rw [List.findSome?_cons, List.findSome?_cons]
    cases hg : g a with
    | none => simpa using ih
    | some b => simp

theorem matchSuffixAt_rel (l : Str) :
    (matchSuffixAt l = none ∧
      suffix_alts.findSome? (fun alt =>
        if leadsWith alt l && commaAfterWs (l.drop alt.length)
        then some alt.length else none) = none) ∨
    (∃ len e alt, alt ∈ suffix_alts ∧ matchSuffixAt l = some len ∧
      suffix_alts.findSome? (fun alt =>
        if leadsWith alt l && commaAfterWs (l.drop alt.length)
        then some alt.length else none) = some e ∧
      e = alt.length ∧ alt <+: l ∧
      len = alt.length + ((l.drop alt.length).takeWhile pyIsSpace).length + 1) := by
  have h := findSome?_rel (fun len e => ∃ alt ∈ suffix_alts, e = alt.length ∧ alt <+: l ∧
      len = alt.length + ((l.drop alt.length).takeWhile pyIsSpace).length + 1)
    suffix_alts (matchAltAt l)
    (fun alt => if leadsWith alt l && commaAfterWs (l.drop alt.length)
      then some alt.length else none) ?_
  · rcases h with ⟨h1, h2⟩ | ⟨b, c, h1, h2, hR⟩
    · left; exact ⟨h1, h2⟩
    · right
      rcases hR with ⟨alt, halt, he, hpre, hlen⟩
      exact ⟨b, c, alt, halt, h1, h2, he, hpre, hlen⟩
  · intro alt halt
    rcases matchAltAt_rel l alt with ⟨h1, h2⟩ | ⟨len, h1, h2, hpre, hlen⟩
    · exact Or.inl ⟨h1, h2⟩
    · exact Or.inr ⟨len, alt.length, h1, h2, alt, halt, rfl, hpre, hlen⟩

theorem searchSuffixGo_shift : ∀ (l : Str) (j : Nat),
    searchSuffixGo l j = (searchSuffixGo l 0).map (fun il => (il.1 + j, il.2)) := by
  intro l
  induction l with
  | nil => intro j; rfl
  | cons c rest ih =>
    intro j
    unfold searchSuffixGo
    cases hm : matchSuffixAt (c :: rest) with
    | some len => simp
    | none =>
      simp only [Nat.zero_add]
      rw [ih (j + 1), ih 1, Option.map_map]
      congr 1
      funext il
      show (il.1 + (j + 1), il.2) = (il.1 + 1 + j, il.2)
      have h4 : il.1 + (j + 1) = il.1 + 1 + j := by omega
      rw [h4]

theorem suffixTokenEnd_cons (c : Char) (rest : Str) :
    suffixTokenEnd (c :: rest) =
      match suffix_alts.findSome? (fun alt =>
          if leadsWith alt (c :: rest) && commaAfterWs ((c :: rest).drop alt.length)
          then some alt.length else none) with
      | some e => some e
      | none => (suffixTokenEnd rest).map (fun e => e + 1) := by
  unfold suffixTokenEnd
  rw [List.length_cons, List.range_succ_eq_map, List.findSome?_cons, List.findSome?_map]
  have h0 : suffix_alts.findSome? (fun alt =>
      if leadsWith alt ((c :: rest).drop 0) && commaAfterWs ((c :: rest).drop (0 + alt.length))
      then some (0 + alt.length) else none)
      = suffix_alts.findSome? (fun alt =>
          if leadsWith alt (c :: rest) && commaAfterWs ((c :: rest).drop alt.length)
          then some alt.length else none) := by
    refine findSome?_ext _ _ suffix_alts ?_
    intro alt _
    simp only [List.drop_zero, Nat.zero_add]
  rw [h0]
  have hsucc : ∀ j ∈ List.range rest.length,
      ((fun i => suffix_alts.findSome? (fun alt =>
        if leadsWith alt ((c :: rest).drop i) && commaAfterWs ((c :: rest).drop (i + alt.length))
        then some (i + alt.length) else none)) ∘ Nat.succ) j
      = ((fun i => suffix_alts.findSome? (fun alt =>
          if leadsWith alt (rest.drop i) && commaAfterWs (rest.drop (i + alt.length))
          then some (i + alt.length) else none)) j).map (fun e => e + 1) := by
    intro j _
    show suffix_alts.findSome? (fun alt =>
        if leadsWith alt ((c :: rest).drop (j + 1)) &&
            commaAfterWs ((c :: rest).drop (j + 1 + alt.length))
        then some (j + 1 + alt.length) else none) = _
    rw [← findSome?_map_out]
    refine findSome?_ext _ _ suffix_alts ?_
    intro alt _
    have hd1 : (c :: rest).drop (j + 1) = rest.drop j := List.drop_succ_cons
    have hd2 : (c :: rest).drop (j + 1 + alt.length) = rest.drop (j + alt.length) := by
      have h12 : j + 1 + alt.length = (j + alt.length) + 1 := by omega
      rw [h12, List.drop_succ_cons]
    rw [hd1, hd2]
    by_cases hcond : (leadsWith alt (rest.drop j) && commaAfterWs (rest.drop (j + alt.length))) = true
    · rw [if_pos hcond, if_pos hcond]
      have h3 : j + 1 + alt.length = j + alt.length + 1 := by omega
      rw [h3]
      rfl
    · rw [if_neg hcond, if_neg hcond]
      rfl
  rw [findSome?_ext _ _ (List.range rest.length) hsucc, findSome?_map_out]
  cases hin2 : suffix_alts.findSome? (fun alt =>
      if leadsWith alt (c :: rest) && commaAfterWs ((c :: rest).drop alt.length)
      then some alt.length else none) with
  | some b => rfl
  | none => rfl

theorem search_rel : ∀ low : Str,
    (searchSuffixGo low 0 = none ∧ suffixTokenEnd low = none) ∨
    (∃ i len e alt, alt ∈ suffix_alts ∧
      searchSuffixGo low 0 = some (i, len) ∧ suffixTokenEnd low = some e ∧
      e = i + alt.length ∧ alt <+: low.drop i ∧
      len = alt.length + ((low.drop e).takeWhile pyIsSpace).length + 1) := by
  intro low
  induction low with
  | nil => left; exact ⟨rfl, rfl⟩
  | cons c rest ih =>
    rw [suffixTokenEnd_cons]
    rcases matchSuffixAt_rel (c :: rest) with ⟨hm, hin⟩ |
      ⟨len, e, alt, halt, hm, hin, he, hpre, hlen⟩
    · rw [hin]
      have hgo : searchSuffixGo (c :: rest) 0 =
          (searchSuffixGo rest 0).map (fun il => (il.1 + 1, il.2)) := by
        have h1 : searchSuffixGo (c :: rest) 0 = searchSuffixGo rest 1 := by
          show (match matchSuffixAt (c :: rest) with
              | some len => some (0, len)
              | none => searchSuffixGo rest (0 + 1)) = searchSuffixGo rest 1
          rw [hm]
        rw [h1]
        exact searchSuffixGo_shift rest 1
      rw [hgo]
      rcases ih with ⟨h1, h2⟩ | ⟨i, len, e, alt, halt, h1, h2, he, hpre, hlen⟩
      · rw [h1, h2]; left; exact ⟨rfl, rfl⟩
      · rw [h1, h2]
        right
        refine ⟨i + 1, len, e + 1, alt, halt, rfl, rfl, by omega, ?_, ?_⟩
        · rw [List.drop_succ_cons]; exact hpre
        · rw [List.drop_succ_cons]; exact hlen
    · rw [hin]
      have hgo : searchSuffixGo (c :: rest) 0 = some (0, len) := by
        show (match matchSuffixAt (c :: rest) with
            | some len => some (0, len)
            | none => searchSuffixGo rest (0 + 1)) = some (0, len)
        rw [hm]
      right
      refine ⟨0, len, e, alt, halt, hgo, rfl, by omega, ?_, ?_⟩
      · rw [List.drop_zero]; exact hpre
      · rw [he]; exact hlen

theorem findFromGo_shift (pat : Str) (hpat : pat ≠ []) : ∀ (l : Str) (j : Nat),
    findFromGo pat l j = (findFromGo pat l 0).map (fun p => p + j) := by
  intro l
  induction l with
  | nil =>
    intro j
    unfold findFromGo
    rw [if_neg hpat, if_neg hpat]
    rfl
  | cons c rest ih =>
    intro j
    unfold findFromGo
    by_cases hlw : leadsWith pat (c :: rest) = true
    · rw [if_pos hlw, if_pos hlw]
      simp
    · rw [if_neg hlw, if_neg hlw]
      simp only [Nat.zero_add]
      rw [ih (j + 1), ih 1, Option.map_map]
      congr 1
      funext p
      show p + (j + 1) = p + 1 + j
      omega

theorem findAndPos_cons (c : Char) (rest : Str) :
    findAndPos (c :: rest) =
      match (if leadsWith and_sep (c :: rest) then some 0 else none : Option Nat) with
      | some p => some p
      | none => (findAndPos rest).map (fun p => p + 1) := by
  unfold findAndPos
  rw [List.length_cons, List.range_succ_eq_map, List.findSome?_cons, List.findSome?_map]
  have h0 : (if leadsWith and_sep ((c :: rest).drop 0) then some 0 else (none : Option Nat))
      = (if leadsWith and_sep (c :: rest) then some 0 else (none : Option Nat)) := by
    rw [List.drop_zero]
  rw [h0]
  have hsucc : ∀ j ∈ List.range rest.length,
      ((fun i => if leadsWith and_sep ((c :: rest).drop i) then some i else none) ∘ Nat.succ) j
      = ((fun i => if leadsWith and_sep (rest.drop i) then some i else none) j).map
          (fun p => p + 1) := by
    intro j _
    show (if leadsWith and_sep ((c :: rest).drop (j + 1)) then some (j + 1)
        else (none : Option Nat)) =
      ((if leadsWith and_sep (rest.drop j) then some j else (none : Option Nat)).map
        (fun p => p + 1))
    rw [List.drop_succ_cons]
    by_cases hlw : leadsWith and_sep (rest.drop j) = true
    · rw [if_pos hlw, if_pos hlw]; rfl
    · rw [if_neg hlw, if_neg hlw]; rfl
  rw [findSome?_ext _ _ (List.range rest.length) hsucc, findSome?_map_out]
  cases hin2 : (if leadsWith and_sep (c :: rest) then some 0 else (none : Option Nat)) with
  | some b => rfl
  | none => rfl

theorem findFromGo_eq_findAndPos : ∀ l : Str, findFromGo and_sep l 0 = findAndPos l := by
  intro l
  induction l with
  | nil => rfl
  | cons c rest ih =>
    rw [findAndPos_cons]
    unfold findFromGo
    by_cases hlw : leadsWith and_sep (c :: rest) = true
    · rw [if_pos hlw, if_pos hlw]
    · rw [if_neg hlw, if_neg hlw]
      simp only [Nat.zero_add]
      rw [findFromGo_shift and_sep (by decide) rest 1, ih]

theorem head?_take_pos (l : Str) (n : Nat) (h1 : 1 ≤ n) : (l.take n).head? = l.head? := by
  cases l with
  | nil => simp
  | cons a as =>
    cases n with
    | zero => omega
    | succ m => rw [List.take_succ_cons, List.head?_cons, List.head?_cons]

/-- Claim C7 (corrected).  `_extract_first_entity` is NOT the token-level
algorithm of the claim: the suffix pattern matches as a plain substring
(also inside a word, e.g. the `inc` of `Zinc`), the comma may follow after
whitespace, and the fallback returns the stripped input rather than the
input verbatim.  The amended description (substring suffix search on the
stripped text, `" and "` split with a 3-character minimum on the trimmed
prefix, stripped-input fallback) is exactly equivalent to the code. -/
theorem c7_first_entity_extraction (name : Str) :
    extract_first_entity name = extract_first_entity_amended name := by
  unfold extract_first_entity extract_first_entity_amended
  by_cases hn : name = []
  · rw [if_pos hn, if_pos hn]
  · rw [if_neg hn, if_neg hn]
    simp only []
    rcases search_rel (pyLower (pyStrip name)) with ⟨hs, ht⟩ |
      ⟨i, len, e, alt, halt, hs, ht, he, hpre, hlen⟩
    · rw [hs, ht]
      simp only []
      rw [findFromGo_eq_findAndPos]
      cases hp : findAndPos (pyLower (pyStrip name)) with
      | none => rfl
      | some p =>
        simp only []
        by_cases hp0 : 0 < p
        · rw [if_pos hp0]
        · have hp0' : p = 0 := by omega
          subst hp0'
          rw [if_neg hp0]
          have h3 : ¬ (3 ≤ (pyStrip ((pyStrip name).take 0)).length) := by
            rw [List.take_zero]
            decide
          rw [if_neg h3]
    · rw [hs, ht]
      simp only []
      obtain ⟨haltne, hlast⟩ := suffix_alts_facts alt halt
      have haltlen : 1 ≤ alt.length := by
        cases alt with
        | nil => exact absurd rfl haltne
        | cons a as => simp
      have hlen_eq : (pyLower (pyStrip name)).length = (pyStrip name).length :=
        List.length_map _ _
      have hple : alt.length ≤ ((pyLower (pyStrip name)).drop i).length := hpre.length_le
      rw [List.length_drop] at hple
      have he_le : e ≤ (pyLower (pyStrip name)).length := by omega
      have htk : ((pyLower (pyStrip name)).drop i).take alt.length = alt :=
        (List.prefix_iff_eq_take.mp hpre).symm
      have htake_e : (pyLower (pyStrip name)).take e =
          (pyLower (pyStrip name)).take i ++ alt := by
        rw [he, List.take_add, htk]
      have hlaste : ∀ c, ((pyLower (pyStrip name)).take e).getLast? = some c →
          pyIsSpace c = false := by
        intro c hc
        rw [htake_e, List.getLast?_append] at hc
        cases hga : alt.getLast? with
        | none =>
          rw [List.getLast?_eq_none_iff] at hga
          exact absurd hga haltne
        | some a =>
          rw [hga] at hc hlast
          have hc' : some a = some c := hc
          injection hc' with hac
          simp only [Option.map_some'] at hlast
          injection hlast with hsp
          rw [← hac]
          exact hsp
      have hidx : i + len - 1 = e + (((pyLower (pyStrip name)).drop e).takeWhile
          pyIsSpace).length := by omega
      rw [hidx, List.take_add]
      refine pyStrip_append_ws ?_ ?_ ?_ ?_
      · intro hnil
        have hl0 := congrArg List.length hnil
        rw [List.length_take] at hl0
        simp only [List.length_nil] at hl0
        rcases Nat.min_eq_zero_iff.mp hl0 with h0 | h0
        · omega
        · rw [hlen_eq] at he_le
          omega
      · intro c hc
        rw [head?_take_pos _ e (by omega)] at hc
        exact pyStrip_head?_false hc
      · intro c hc
        have hmapl : ((pyStrip name).take e).map pyToLower =
            (pyLower (pyStrip name)).take e := List.map_take pyToLower (pyStrip name) e
        have hcl : ((pyLower (pyStrip name)).take e).getLast? = some (pyToLower c) := by
          rw [← hmapl, List.getLast?_map, hc]
          rfl
        have hres := hlaste (pyToLower c) hcl
        rw [pyIsSpace_pyToLower] at hres
        exact hres
      · intro c hc
        have hmapt : (((pyStrip name).drop e).take
              (((pyLower (pyStrip name)).drop e).takeWhile pyIsSpace).length).map pyToLower =
            ((pyLower (pyStrip name)).drop e).take
              (((pyLower (pyStrip name)).drop e).takeWhile pyIsSpace).length := by
          rw [List.map_take, List.map_drop]
          rfl
        have hmem : pyToLower c ∈ ((pyLower (pyStrip name)).drop e).take
            (((pyLower (pyStrip name)).drop e).takeWhile pyIsSpace).length := by
          rw [← hmapt]
          exact List.mem_map.mpr ⟨c, hc, rfl⟩
        have htw : ((pyLower (pyStrip name)).drop e).take
              (((pyLower (pyStrip name)).drop e).takeWhile pyIsSpace).length =
            ((pyLower (pyStrip name)).drop e).takeWhile pyIsSpace :=
          (List.prefix_iff_eq_take.mp (List.takeWhile_prefix pyIsSpace)).symm
        rw [htw] at hmem
        have hres := List.mem_takeWhile_imp hmem
        rw [pyIsSpace_pyToLower] at hres
        exact hres

/-- Counterexample for C7's literal wording: on `"Zinc, Corp"` the code
splits inside the word `Zinc` (substring `inc` followed by a comma) and
returns `"Zinc"`, while the claimed token-level algorithm finds no split
point and returns the input unchanged. -/
theorem c7_first_entity_counterexample :
    extract_first_entity (("Zinc, Corp").data) = ("Zinc").data ∧
    extract_first_entity_claim (("Zinc, Corp").data) = ("Zinc, Corp").data ∧
    extract_first_entity (("Zinc, Corp").data) ≠
      extract_first_entity_claim (("Zinc, Corp").data) := by decide

/-! ## Claim C8: frame effect of the safe consolidation -/

theorem alias_inner_spec (dict : List (Str × Str)) (existing0 : Finset Str) (g : CGroup) :
    ∀ (ds : List Str) (st : List AliasRow × Finset Str × Int),
    st.2.1 = existing0 ∪ (st.1.map (fun r => pyLower r.alias_text)).toFinset →
    ((st.1.map (fun r => pyLower r.alias_text)).Nodup ∧
     ∀ r ∈ st.1, pyLower r.alias_text ∉ existing0) →
    (ds.foldl (alias_inner_step dict g) st).2.1 =
        existing0 ∪ ((ds.foldl (alias_inner_step dict g) st).1.map
          (fun r => pyLower r.alias_text)).toFinset ∧
    ((ds.foldl (alias_inner_step dict g) st).1.map (fun r => pyLower r.alias_text)).Nodup ∧
    (∀ r ∈ (ds.foldl (alias_inner_step dict g) st).1, pyLower r.alias_text ∉ existing0) ∧
    (∃ tail, (ds.foldl (alias_inner_step dict g) st).1 = st.1 ++ tail ∧
      ∀ r ∈ tail, r.entity_type = ("company").data ∧ r.entity_id = g.canonical ∧
        ∃ d ∈ ds, r.alias_text = (dlookup dict d).getD []) ∧
    (∀ x ∈ st.2.1, x ∈ (ds.foldl (alias_inner_step dict g) st).2.1) ∧
    (∀ d ∈ ds, pyLower ((dlookup dict d).getD []) ∈
      (ds.foldl (alias_inner_step dict g) st).2.1) := by
  intro ds
  induction ds with
  | nil =>
    intro st hseen hprops
    exact ⟨hseen, hprops.1, hprops.2, ⟨[], by simp, by simp⟩, fun x hx => hx, by simp⟩
  | cons d rest ih =>
    intro st hseen hprops
    obtain ⟨hnd, hex⟩ := hprops
    rw [List.foldl_cons]
    by_cases hmem : pyLower ((dlookup dict d).getD []) ∈ st.2.1
    · have hstep : alias_inner_step dict g st d = st := by
        unfold alias_inner_step
        rw [if_pos hmem]
      rw [hstep]
      obtain ⟨h1, h2, h3, ⟨tail, htail, htprops⟩, hmono, hcov⟩ := ih st hseen ⟨hnd, hex⟩
      refine ⟨h1, h2, h3, ⟨tail, htail, fun r hr => ?_⟩, hmono, ?_⟩
      · obtain ⟨t1, t2, d', hd', t3⟩ := htprops r hr
        exact ⟨t1, t2, d', List.mem_cons_of_mem _ hd', t3⟩
      · intro d' hd'
        rcases List.mem_cons.mp hd' with rfl | hd'
        · exact hmono _ hmem
        · exact hcov d' hd'
    · have hstep : alias_inner_step dict g st d =
          (st.1 ++ [⟨mk_alias_id (st.2.2 + 1), ("company").data, g.canonical,
            (dlookup dict d).getD []⟩],
           insert (pyLower ((dlookup dict d).getD [])) st.2.1, st.2.2 + 1) := by
        unfold alias_inner_step
        rw [if_neg hmem]
      rw [hstep]
      have hmaps : ((st.1 ++ [(⟨mk_alias_id (st.2.2 + 1), ("company").data, g.canonical,
            (dlookup dict d).getD []⟩ : AliasRow)]).map (fun r => pyLower r.alias_text)) =
          st.1.map (fun r => pyLower r.alias_text) ++
            [pyLower ((dlookup dict d).getD [])] := by
        rw [List.map_append]
        rfl
      have hseen' : (insert (pyLower ((dlookup dict d).getD [])) st.2.1) =
          existing0 ∪ (((st.1 ++ [(⟨mk_alias_id (st.2.2 + 1), ("company").data, g.canonical,
            (dlookup dict d).getD []⟩ : AliasRow)]).map (fun r => pyLower r.alias_text)).toFinset) := by
        rw [hmaps, List.toFinset_append, hseen]
        ext x
        simp only [Finset.mem_insert, Finset.mem_union, List.mem_toFinset,
          List.toFinset_cons, List.toFinset_nil, insert_emptyc_eq, Finset.mem_singleton]
        tauto
      have hnotrows : pyLower ((dlookup dict d).getD []) ∉
          st.1.map (fun r => pyLower r.alias_text) := by
        intro hin
        exact hmem (by rw [hseen]; exact Finset.mem_union_right _ (List.mem_toFinset.mpr hin))
      have hnd' : ((st.1 ++ [(⟨mk_alias_id (st.2.2 + 1), ("company").data, g.canonical,
          (dlookup dict d).getD []⟩ : AliasRow)]).map (fun r => pyLower r.alias_text)).Nodup := by
        rw [hmaps, List.nodup_append]
        refine ⟨hnd, List.nodup_singleton _, ?_⟩
        intro x hx hx2
        rw [List.mem_singleton] at hx2
        rw [hx2] at hx
        exact hnotrows hx
      have hex' : ∀ r ∈ st.1 ++ [(⟨mk_alias_id (st.2.2 + 1), ("company").data, g.canonical,
          (dlookup dict d).getD []⟩ : AliasRow)], pyLower r.alias_text ∉ existing0 := by
        intro r hr
        rcases List.mem_append.mp hr with hr | hr
        · exact hex r hr
        · rw [List.mem_singleton] at hr
          rw [hr]
          intro hmem0
          exact hmem (by rw [hseen]; exact Finset.mem_union_left _ hmem0)
      obtain ⟨h1, h2, h3, ⟨tail, htail, htprops⟩, hmono, hcov⟩ :=
        ih (st.1 ++ [⟨mk_alias_id (st.2.2 + 1), ("company").data, g.canonical,
            (dlookup dict d).getD []⟩],
          insert (pyLower ((dlookup dict d).getD [])) st.2.1, st.2.2 + 1) hseen' ⟨hnd', hex'⟩
      refine ⟨h1, h2, h3,
        ⟨⟨mk_alias_id (st.2.2 + 1), ("company").data, g.canonical,
          (dlookup dict d).getD []⟩ :: tail, ?_, ?_⟩, ?_, ?_⟩
      · rw [htail, List.append_assoc]
        rfl
      · intro r hr
        rcases List.mem_cons.mp hr with rfl | hr
        · exact ⟨rfl, rfl, d, List.mem_cons_self _ _, rfl⟩
        · obtain ⟨t1, t2, d', hd', t3⟩ := htprops r hr
          exact ⟨t1, t2, d', List.mem_cons_of_mem _ hd', t3⟩
      · intro x hx
        exact hmono x (Finset.mem_insert_of_mem hx)
      · intro d' hd'
        rcases List.mem_cons.mp hd' with rfl | hd'
        · exact hmono _ (Finset.mem_insert_self _ _)
        · exact hcov d' hd'

theorem alias_outer_spec (dict : List (Str × Str)) (existing0 : Finset Str) :
    ∀ (gs : List CGroup) (st : List AliasRow × Finset Str × Int),
    st.2.1 = existing0 ∪ (st.1.map (fun r => pyLower r.alias_text)).toFinset →
    ((st.1.map (fun r => pyLower r.alias_text)).Nodup ∧
     ∀ r ∈ st.1, pyLower r.alias_text ∉ existing0) →
    (gs.foldl (fun st g => g.dups.foldl (alias_inner_step dict g) st) st).2.1 =
        existing0 ∪ ((gs.foldl (fun st g => g.dups.foldl (alias_inner_step dict g) st)
          st).1.map (fun r => pyLower r.alias_text)).toFinset ∧
    ((gs.foldl (fun st g => g.dups.foldl (alias_inner_step dict g) st) st).1.map
      (fun r => pyLower r.alias_text)).Nodup ∧
    (∀ r ∈ (gs.foldl (fun st g => g.dups.foldl (alias_inner_step dict g) st) st).1,
      pyLower r.alias_text ∉ existing0) ∧
    (∃ tail, (gs.foldl (fun st g => g.dups.foldl (alias_inner_step dict g) st) st).1 =
        st.1 ++ tail ∧
      ∀ r ∈ tail, r.entity_type = ("company").data ∧
        ∃ g ∈ gs, ∃ d ∈ g.dups, r.entity_id = g.canonical ∧
          r.alias_text = (dlookup dict d).getD []) ∧
    (∀ x ∈ st.2.1, x ∈
      (gs.foldl (fun st g => g.dups.foldl (alias_inner_step dict g) st) st).2.1) ∧
    (∀ g ∈ gs, ∀ d ∈ g.dups, pyLower ((dlookup dict d).getD []) ∈
      (gs.foldl (fun st g => g.dups.foldl (alias_inner_step dict g) st) st).2.1) := by
  intro gs
  induction gs with
  | nil =>
    intro st hseen hprops
    exact ⟨hseen, hprops.1, hprops.2, ⟨[], by simp, by simp⟩, fun x hx => hx, by simp⟩
  | cons g rest ih =>
    intro st hseen hprops
    rw [List.foldl_cons]
    obtain ⟨h1, h2, h3, ⟨tail1, htail1, ht1props⟩, hmono1, hcov1⟩ :=
      alias_inner_spec dict existing0 g g.dups st hseen hprops
    obtain ⟨k1, k2, k3, ⟨tail2, htail2, ht2props⟩, hmono2, hcov2⟩ :=
      ih (g.dups.foldl (alias_inner_step dict g) st) h1 ⟨h2, h3⟩
    refine ⟨k1, k2, k3, ⟨tail1 ++ tail2, ?_, ?_⟩, ?_, ?_⟩
    · rw [htail2, htail1, List.append_assoc]
    · intro r hr
      rcases List.mem_append.mp hr with hr | hr
      · obtain ⟨t1, t2, d', hd', t3⟩ := ht1props r hr
        exact ⟨t1, g, List.mem_cons_self _ _, d', hd', t2, t3⟩
      · obtain ⟨t1, g', hg', d', hd', t2, t3⟩ := ht2props r hr
        exact ⟨t1, g', List.mem_cons_of_mem _ hg', d', hd', t2, t3⟩
    · intro x hx
      exact hmono2 x (hmono1 x hx)
    · intro g' hg' d' hd'
      rcases List.mem_cons.mp hg' with rfl | hg'
      · exact hmono2 _ (hcov1 d' hd')
      · exact hcov2 g' hg' d' hd'

/-- Per-row characterization of the holding remap: non-`company_id` fields
are untouched, and `company_id` changes only when it currently points at a
key of the consolidation map, in which case it becomes the mapped
canonical id. -/
theorem remap_holding_spec (cmap : List (Str × Str)) (h : HoldingRow) :
    (remap_holding cmap h).reported_holding_id = h.reported_holding_id ∧
    (remap_holding cmap h).raw_company_name = h.raw_company_name ∧
    (is_null h.company_id = true → remap_holding cmap h = h) ∧
    (∀ s, h.company_id = some s → is_null h.company_id = false →
      (dlookup cmap s = none → remap_holding cmap h = h) ∧
      (∀ c, dlookup cmap s = some c → (remap_holding cmap h).company_id = some c)) := by
  unfold remap_holding
  by_cases hnull : is_null h.company_id = false
  · rw [if_pos hnull]
    cases hcid : h.company_id with
    | none =>
      refine ⟨rfl, rfl, fun _ => rfl, ?_⟩
      intro s hs
      exact Option.noConfusion hs
    | some s0 =>
      simp only []
      cases hl : dlookup cmap s0 with
      | none =>
        refine ⟨rfl, rfl, fun _ => rfl, ?_⟩
        intro s hs _
        injection hs with hss
        subst hss
        refine ⟨fun _ => rfl, ?_⟩
        intro c hc
        rw [hl] at hc
        exact Option.noConfusion hc
      | some c0 =>
        refine ⟨rfl, rfl, ?_, ?_⟩
        · intro htrue
          rw [hcid] at hnull
          rw [htrue] at hnull
          exact Bool.noConfusion hnull
        · intro s hs _
          injection hs with hss
          subst hss
          refine ⟨?_, ?_⟩
          · intro hln
            rw [hl] at hln
            exact Option.noConfusion hln
          · intro c hc
            rw [hl] at hc
            injection hc with hcc
            rw [hcc]
  · rw [if_neg hnull]
    refine ⟨rfl, rfl, fun _ => rfl, ?_⟩
    intro s hs hfalse
    exact absurd hfalse hnull

theorem forall₂_map_self {A B : Type} (R : A → B → Prop) (f : A → B)
    (h : ∀ a, R a (f a)) : ∀ l : List A, List.Forall₂ R l (l.map f) := by
  intro l
  induction l with
  | nil => exact List.Forall₂.nil
  | cons a rest ih => exact List.Forall₂.cons (h a) ih

/-- Claim C8 (confirmed).  The safe consolidation never deletes or edits a
company row or an existing alias row: the company table is returned
verbatim, the alias table keeps its rows as a prefix and only gains rows
(each a company alias for a duplicate's name, pointing at that group's
canonical id, with a lower-cased text that was not yet present and is not
repeated), every duplicate's name ends up queryable as an alias, and the
only holding field ever rewritten is a `company_id` currently pointing at
a duplicate, which becomes the canonical id. -/
theorem c8_no_destructive_writes (companies : List (Str × Str))
    (holdings : List HoldingRow) (aliases : List AliasRow) :
    (consolidate_company_duplicates_safe companies holdings aliases).1 = companies ∧
    List.IsPrefix aliases
      (consolidate_company_duplicates_safe companies holdings aliases).2.2.1 ∧
    (∀ r ∈ (consolidate_company_duplicates_safe companies holdings aliases).2.2.1.drop
        aliases.length,
      r.entity_type = ("company").data ∧
      pyLower r.alias_text ∉ aliases.map (fun a => pyLower a.alias_text) ∧
      ∃ g ∈ (consolidation_pass (build_dict companies)).groups, ∃ d ∈ g.dups,
        r.entity_id = g.canonical ∧
        r.alias_text = (dlookup (build_dict companies) d).getD []) ∧
    (((consolidate_company_duplicates_safe companies holdings aliases).2.2.1.drop
        aliases.length).map (fun r => pyLower r.alias_text)).Nodup ∧
    (∀ g ∈ (consolidation_pass (build_dict companies)).groups, ∀ d ∈ g.dups,
      pyLower ((dlookup (build_dict companies) d).getD []) ∈
        (consolidate_company_duplicates_safe companies holdings aliases).2.2.1.map
          (fun a => pyLower a.alias_text)) ∧
    List.Forall₂ (fun h h' =>
        h'.reported_holding_id = h.reported_holding_id ∧
        h'.raw_company_name = h.raw_company_name ∧
        (is_null h.company_id = true → h' = h) ∧
        (∀ s, h.company_id = some s → is_null h.company_id = false →
          (dlookup (consolidation_map
              (consolidation_pass (build_dict companies)).groups) s = none → h' = h) ∧
          (∀ c, dlookup (consolidation_map
              (consolidation_pass (build_dict companies)).groups) s = some c →
            h'.company_id = some c)))
      holdings (consolidate_company_duplicates_safe companies holdings aliases).2.1 := by
  have hspec := alias_outer_spec (build_dict companies)
    ((aliases.map (fun a => pyLower a.alias_text)).toFinset)
    (consolidation_pass (build_dict companies)).groups
    ([], (aliases.map (fun a => pyLower a.alias_text)).toFinset, max_alias_id aliases)
    (by simp) (by simp)
  obtain ⟨hseen, hnd, hex, ⟨tail, htail, htprops⟩, hmono, hcov⟩ := hspec
  have hnew : build_new_aliases (build_dict companies)
      (consolidation_pass (build_dict companies)).groups
      ((aliases.map (fun a => pyLower a.alias_text)).toFinset) (max_alias_id aliases)
      = tail := by
    unfold build_new_aliases
    rw [htail]
    rfl
  have halis : (consolidate_company_duplicates_safe companies holdings aliases).2.2.1 =
      aliases ++ tail := by
    show aliases ++ build_new_aliases (build_dict companies)
      (consolidation_pass (build_dict companies)).groups
      ((aliases.map (fun a => pyLower a.alias_text)).toFinset) (max_alias_id aliases) = _
    rw [hnew]
  have hdrop : (consolidate_company_duplicates_safe companies holdings aliases).2.2.1.drop
      aliases.length = tail := by
    rw [halis]
    exact List.drop_left _ _
  refine ⟨rfl, ?_, ?_, ?_, ?_, ?_⟩
  · rw [halis]
    exact ⟨tail, rfl⟩
  · intro r hr
    rw [hdrop] at hr
    obtain ⟨t1, g, hg, d, hd, t2, t3⟩ := htprops r hr
    refine ⟨t1, ?_, g, hg, d, hd, t2, t3⟩
    intro hin
    have hrin := hex r (by rw [htail]; exact List.mem_append_right _ hr)
    exact hrin (List.mem_toFinset.mpr hin)
  · rw [hdrop]
    rw [htail] at hnd
    simpa using hnd
  · intro g hg d hd
    have hmem := hcov g hg d hd
    rw [hseen, htail] at hmem
    rw [halis, List.map_append]
    rcases Finset.mem_union.mp hmem with hmem | hmem
    · exact List.mem_append_left _ (List.mem_toFinset.mp hmem)
    · have := List.mem_toFinset.mp hmem
      simp only [List.nil_append] at this
      exact List.mem_append_right _ this
  · refine forall₂_map_self _ _ ?_ holdings
    intro h
    exact remap_holding_spec _ h

/-- Witness for C8: on a concrete two-company table with no holdings and
no existing aliases, the duplicate's name becomes available as an alias
text after consolidation. -/
theorem c8_no_destructive_writes_witness :
    pyLower ((dlookup (build_dict
        [(("b1").data, ("Delta Systems Inc").data), (("b2").data, ("Delta Systems LLC").data)])
        (("b2").data)).getD []) ∈
      (consolidate_company_duplicates_safe
        [(("b1").data, ("Delta Systems Inc").data), (("b2").data, ("Delta Systems LLC").data)]
        [] []).2.2.1.map (fun a => pyLower a.alias_text) :=
  (c8_no_destructive_writes
    [(("b1").data, ("Delta Systems Inc").data), (("b2").data, ("Delta Systems LLC").data)]
    [] []).2.2.2.2.1
    ⟨("b1").data, [("b2").data], method_normalized,
      GroupReason.normalized_eq (("delta systems").data)⟩ (by decide)
    (("b2").data) (by decide)

end EntityResolution
